import Mathlib

/-!
Verification of the daily arXiv paper pipeline
(`get_daily_arxiv_paper.py`): a shallow embedding of the pure core of the
script — the classification & filter loop of `fetch_arxiv_papers`, the
per-record enrichment dispatch of `process_single_paper`, the rendering
functions `get_arxiv_prefix` / `format_paper_with_enhanced_info`, the
section scanner and merge logic of `update_markdown_file`, and the
line-oriented response field extraction of
`call_api_for_tags_institution_interest` — together with theorems about
the specified properties.

Text is modelled as `List Char`.  Python string primitives used by the
script (`strip`, `rstrip('\n')`, `lstrip('\n')`, `lower`, `in`,
`replace`, `split`, `splitlines`, lexicographic `<` on `str`) are each
given a faithful `List Char` counterpart below.  `lower` is modelled as
ASCII lowercasing (the script's keyword tests are ASCII); `splitlines`
is modelled as splitting on `'\n'` (every produced line is immediately
`strip`ped by the script, so `"\r\n"` line endings behave identically).
File reads/writes are modelled functionally: the document updater takes
the current document text and returns the text that would be written
(returning the input unchanged models the early exit that performs no
write).
-/

namespace ArxivDaily

/-- Text, modelled as a list of characters. -/
abbrev Str := List Char

/-- Coerce a Lean string literal to the `List Char` text model. -/
def str (s : String) : Str := s.data

/-- Python whitespace for the default `str.strip` / `str.rstrip` and for
the regex class `\s` (ASCII part): space, tab, newline, carriage return,
vertical tab, form feed. -/
def pyWsChar (c : Char) : Bool :=
  c = ' ' || c = '\t' || c = '\n' || c = '\r' || c = '\x0b' || c = '\x0c'

/-- Python `s.lstrip('\n')`. -/
def lstripNl (s : Str) : Str := s.dropWhile (fun c => c = '\n')

/-- Python `s.rstrip('\n')`. -/
def rstripNl (s : Str) : Str := ((s.reverse).dropWhile (fun c => c = '\n')).reverse

/-- Python `s.lstrip()` (default whitespace). -/
def pyLstrip (s : Str) : Str := s.dropWhile pyWsChar

/-- Python `s.rstrip()` (default whitespace). -/
def pyRstrip (s : Str) : Str := ((s.reverse).dropWhile pyWsChar).reverse

/-- Python `s.strip()` (default whitespace). -/
def pyStrip (s : Str) : Str := pyRstrip (pyLstrip s)

/-- Python `s.lower()`, modelled for ASCII text. -/
def pyLower (s : Str) : Str := s.map Char.toLower

/-- Python substring containment `needle in hay`. -/
def containsSub (needle hay : Str) : Bool :=
  if needle.isPrefixOf hay then true
  else
    match hay with
    | [] => false
    | _ :: t => containsSub needle t

/-- Python `s.replace(c, r)` for a one-character pattern `c`. -/
def pyReplaceChar (c : Char) (r : Str) (s : Str) : Str :=
  s.flatMap (fun x => if x = c then r else [x])

/-- Python `s.split(',')`. -/
def splitComma : Str → List Str
  | [] => [[]]
  | c :: rest =>
    if c = ',' then [] :: splitComma rest
    else
      match splitComma rest with
      | h :: t => (c :: h) :: t
      | [] => [[c]]

/-- Python `s.splitlines()` modelled as splitting on `'\n'` (see header
note). -/
def splitNl : Str → List Str
  | [] => [[]]
  | c :: rest =>
    if c = '\n' then [] :: splitNl rest
    else
      match splitNl rest with
      | h :: t => (c :: h) :: t
      | [] => [[c]]

/-- Python lexicographic `a < b` on strings (code-point order). -/
def strLt : Str → Str → Bool
  | [], [] => false
  | [], _ :: _ => true
  | _ :: _, [] => false
  | a :: as, b :: bs =>
    if a < b then true
    else if b < a then false
    else strLt as bs

/-- Decimal rendering of a natural number (Python `f"{n}"` for a
non-negative `int`). -/
def natStr (n : Nat) : Str := (Nat.repr n).data

/-- One listing entry, as produced by `_extract_paper_info_from_html`:
the parser always populates `id`, `title`, `authors`, `summary`,
`pdf_link`, `categories` and `replaced`; the keyword-match flags are
absent until the classification loop sets them (an absent key reads as
falsy in the script, so they are modelled as `Bool` defaulting to
`false`); the enrichment fields are absent until `process_single_paper`
sets them, and `dict.get` distinguishes an absent key from an empty
string, so they are modelled as `Option`. -/
structure Paper where
  id : Str
  title : Str
  authors : List Str
  summary : Str
  pdf_link : Str
  categories : List Str
  replaced : Bool
  rl_match : Bool := false
  accelerat_match : Bool := false
  tag1 : Option Str := none
  tag2 : Option Str := none
  tag3 : Option Str := none
  institution : Option Str := none
  llm_summary : Option Str := none
  simple_only : Option Bool := none
  is_interested : Option Bool := none
  deriving DecidableEq, Repr

/-- The keyword-gated category subset `['cs.AI', 'cs.LG']`. -/
def gatedCats : List Str := [str "cs.AI", str "cs.LG"]

/-- The `categories` argument `main` passes to the pipeline. -/
def mainCats : List Str := [str "cs.DC", str "cs.AI", str "cs.LG"]

/-- The keyword `"reinforcement learning"`. -/
def rlKw : Str := str "reinforcement learning"

/-- The keyword `"accelerat"`. -/
def accKw : Str := str "accelerat"

/-- One iteration of the filter body of `fetch_arxiv_papers` (after the
duplicate and `replaced` checks): returns the possibly flag-annotated
record and the final value of `should_add`.  Mirrors the branch
structure: `cs.DC` membership first; otherwise membership in the
`categories` allowlist, with the `cs.AI`/`cs.LG` subset additionally
keyword-gated (the two keyword predicates are computed and stored on
the record before retention is decided). -/
def classifyStep (cats : List Str) (p : Paper) : Paper × Bool :=
  if (str "cs.DC") ∈ p.categories then (p, true)
  else if cats.any (fun c => c ∈ p.categories) then
    if p.categories.any (fun c => c ∈ gatedCats) then
      let rl := containsSub rlKw (pyLower p.summary)
      let acc := containsSub accKw (pyLower p.summary)
      ({ p with rl_match := rl, accelerat_match := acc }, rl || acc)
    else (p, true)
  else (p, false)

/-- The retention loop of `fetch_arxiv_papers` over already-parsed
entries, carrying the `seen_papers` set (modelled as the list of ids
retained so far; ids are added only when a record is appended, exactly
as in the source). -/
def fetchLoop (cats : List Str) (seen : List Str) : List Paper → List Paper
  | [] => []
  | p :: ps =>
    if p.id ∈ seen then fetchLoop cats seen ps
    else if p.replaced then fetchLoop cats seen ps
    else
      let q := (classifyStep cats p).1
      if (classifyStep cats p).2 then q :: fetchLoop cats (p.id :: seen) ps
      else fetchLoop cats seen ps

/-- The Classification & Filter Engine: `fetch_arxiv_papers` applied to
a parsed entry sequence (the HTML extraction itself is the external
Listing Parser; this is the retention/classification loop over its
output). -/
def fetchArxivPapers (cats : List Str) (entries : List Paper) : List Paper :=
  fetchLoop cats [] entries

/-- Truthiness of an optional string field (`paper.get(k)` is falsy when
the key is absent or maps to `""`). -/
def optTruthy (o : Option Str) : Bool := ¬ (o.getD [] = [])

/-- `process_single_paper`.  The impure enrichment steps (PDF download,
first-page text extraction, summarization-service call) are abstracted
as the `enrich` oracle: `none` models a failed PDF download (the script
then returns the record with only `is_interested` set); `some` models a
completed download followed by the service call, whose parsed
five-field result is the payload (a failed service call yields the
all-empty tuple, exactly as `call_api_for_tags_institution_interest`
returns on exception). -/
def processSingle (enrich : Paper → Option (Str × Str × List Str × Str × Str))
    (p : Paper) : Paper :=
  if ¬ p.categories.any (fun c => c = str "cs.DC") then
    { p with simple_only := some true, is_interested := some true }
  else if p.pdf_link = [] ∨ p.pdf_link = str "N/A" then
    { p with is_interested := some true }
  else
    match enrich p with
    | none => { p with is_interested := some true }
    | some (t1, t2, t3l, inst, ls) =>
      { p with tag1 := some t1, tag2 := some t2,
               tag3 := some (List.intercalate (str ", ") t3l),
               institution := some inst, is_interested := some true,
               llm_summary := some ls, simple_only := some false }

/-- Modelled from `get_arxiv_prefix`: `datetime.strptime` validation of
a `YYYY-MM-DD` date string (zero-padded form; other strptime-acceptable
spellings do not occur in this pipeline). -/
def digitAt (s : Str) (i : Nat) : Bool := (s.getD i ' ').isDigit

/-- Numeric value of the two digits at positions `i`, `i+1`. -/
def twoDigits (s : Str) (i : Nat) : Nat :=
  ((s.getD i '0').toNat - 48) * 10 + ((s.getD (i + 1) '0').toNat - 48)

/-- Gregorian leap-year test, as `datetime` validates calendar dates. -/
def isLeap (y : Nat) : Bool := y % 4 = 0 && (y % 100 ≠ 0 || y % 400 = 0)

/-- Days in a month. -/
def daysInMonth (y m : Nat) : Nat :=
  if m = 2 then (if isLeap y then 29 else 28)
  else if m = 4 ∨ m = 6 ∨ m = 9 ∨ m = 11 then 30
  else 31

/-- Whether `datetime.strptime(s, '%Y-%m-%d')` succeeds on a ten-character
zero-padded date string. -/
def isValidDate (s : Str) : Bool :=
  s.length = 10 && digitAt s 0 && digitAt s 1 && digitAt s 2 && digitAt s 3 &&
  s.getD 4 ' ' = '-' && digitAt s 5 && digitAt s 6 &&
  s.getD 7 ' ' = '-' && digitAt s 8 && digitAt s 9 &&
  (let y := twoDigits s 0 * 100 + twoDigits s 2
   let m := twoDigits s 5
   let d := twoDigits s 8
   1 ≤ m && m ≤ 12 && 1 ≤ d && d ≤ daysInMonth y m)

/-- `get_arxiv_prefix`: the dated tag `[arXivYYMMDD]` derived from the
date string, or `""` when `strptime` fails.  (`str(dt.year)[-2:]`,
`dt.month:02d` and `dt.day:02d` are exactly the corresponding digit
pairs of the validated zero-padded input.) -/
def getArxivDateTag (dateStr : Str) : Str :=
  if isValidDate dateStr then
    str "[arXiv" ++ [dateStr.getD 2 ' ', dateStr.getD 3 ' ',
      dateStr.getD 5 ' ', dateStr.getD 6 ' ',
      dateStr.getD 8 ' ', dateStr.getD 9 ' '] ++ str "]"
  else []

/-- The MDX escaping applied to a record's LLM summary line:
`replace('<','&lt;').replace('>','&gt;').replace('{','\\{').replace('}','\\}')`. -/
def escapeSummary (s : Str) : Str :=
  pyReplaceChar '\x7d' (str "\\\x7d")
    (pyReplaceChar '\x7b' (str "\\\x7b")
      (pyReplaceChar '>' (str "&gt;")
        (pyReplaceChar '<' (str "&lt;") s)))

/-- The bracketed tag tokens of the tag line of a detailed entry. -/
def tagTokens (p : Paper) : List Str :=
  (if optTruthy p.tag1 then [str "[" ++ p.tag1.getD [] ++ str "]"] else []) ++
  (if optTruthy p.tag2 then [str "[" ++ p.tag2.getD [] ++ str "]"] else []) ++
  (if optTruthy p.tag3 then
    (let items := ((splitComma (p.tag3.getD [])).map pyStrip).filter (fun t => ¬ t = [])
     if items = [] then []
     else [str "[" ++ List.intercalate (str ", ") items ++ str "]"])
   else [])

/-- `format_paper_with_enhanced_info`: the rendered entry for one
record (simple single-line form for non-`cs.DC` records, detailed
multi-line form for `cs.DC` records). -/
def formatPaper (p : Paper) (dateStr : Option Str) : Str :=
  let arxivTag := match dateStr with
    | some d => getArxivDateTag d
    | none => []
  if ¬ p.categories.any (fun c => c = str "cs.DC") then
    let paperLink := if ¬ p.pdf_link = [] ∧ ¬ p.pdf_link = str "N/A" then p.pdf_link else p.id
    str "- " ++ arxivTag ++ str " " ++ p.title ++ str " [link](" ++ paperLink ++ str ")\n"
  else
    let authors := List.intercalate (str ", ") p.authors
    let tags := tagTokens p
    let tagsStr := if tags = [] then str "TBD" else List.intercalate (str ", ") tags
    let institution := p.institution.getD (str "TBD")
    let llmSummary := pyStrip (p.llm_summary.getD [])
    str "- **" ++ arxivTag ++ str " " ++ p.title ++ str "**\n" ++
    str "  - **tags:** " ++ tagsStr ++ str "\n" ++
    str "  - **authors:** " ++ authors ++ str "\n" ++
    str "  - **institution:** " ++ institution ++ str "\n" ++
    str "  - **link:** " ++ p.pdf_link ++ str "\n" ++
    (if ¬ llmSummary = [] then
      str "  - **Simple LLM Summary:** " ++ escapeSummary llmSummary ++ str "\n"
     else []) ++
    str "\n"

/-- The `cs.DC` presentation group (`csdc_papers` in
`update_markdown_file`), in the relative order of the input list. -/
def csdcPapers (l : List Paper) : List Paper :=
  l.filter (fun p => p.categories.any (fun c => c = str "cs.DC"))

/-- The non-`cs.DC` remainder (`other_papers`). -/
def otherPapers (l : List Paper) : List Paper :=
  l.filter (fun p => ¬ p.categories.any (fun c => c = str "cs.DC"))

/-- The `"reinforcement learning"` keyword group (`rl_papers`). -/
def rlPapers (l : List Paper) : List Paper :=
  (otherPapers l).filter (fun p => p.rl_match)

/-- The `"accelerat"` keyword group (`accelerat_papers`). -/
def acceleratPapers (l : List Paper) : List Paper :=
  (otherPapers l).filter (fun p => p.accelerat_match)

/-- The freshly rendered DateSection text (`papers_content` in
`update_markdown_file`): the `## date` header, then the three group
blocks each headed by its count, or the no-results placeholder when the
record list is empty. -/
def papersContent (allPapers : List Paper) (dateStr : Str) : Str :=
  str "## " ++ dateStr ++ str "\n\n" ++
  (if allPapers = [] then str "No papers today\n"
   else
    let csdc := csdcPapers allPapers
    let rl := rlPapers allPapers
    let acc := acceleratPapers allPapers
    str "**cs.DC total: " ++ natStr csdc.length ++ str "**\n\n" ++
    (csdc.map (fun p => formatPaper p (some dateStr))).flatten ++
    str "\n**cs.AI/cs.LG contains \"reinforcement learning\" total: " ++
      natStr rl.length ++ str "**\n" ++
    (rl.map (fun p => formatPaper p (some dateStr))).flatten ++
    str "\n**cs.AI/cs.LG contains \"accelerate\" total: " ++
      natStr acc.length ++ str "**\n" ++
    (acc.map (fun p => formatPaper p (some dateStr))).flatten)

/-! ### The DateSection scanner

`update_markdown_file` locates existing sections with
`re.finditer(r"(^|\n)##\s*(\d{4}-\d{2}-\d{2}).*?(?=\n##\s|\Z)", DOTALL)`.
The emulation below reproduces its semantics: a match starts at
position 0 or at a `'\n'`, consumes `##`, a greedy whitespace run, a
ten-character date, then the shortest (lazy) body after which either
the lookahead `\n##\s` holds or the text ends; scanning resumes at the
end of each match, so no match starts inside another. -/

/-- Shape test for the `\d{4}-\d{2}-\d{2}` date token (the character
at each position, with a non-matching default for missing positions). -/
def dateShape (s : Str) : Bool :=
  s.length = 10 &&
  (s.getD 0 'x').isDigit && (s.getD 1 'x').isDigit &&
  (s.getD 2 'x').isDigit && (s.getD 3 'x').isDigit &&
  s.getD 4 'x' = '-' &&
  (s.getD 5 'x').isDigit && (s.getD 6 'x').isDigit &&
  s.getD 7 'x' = '-' &&
  (s.getD 8 'x').isDigit && (s.getD 9 'x').isDigit

/-- The lookahead `(?=\n##\s)`: the next four characters are a newline,
two hashes and a whitespace character (missing positions, via the
non-matching default `'x'`, fail the test, as the regex lookahead fails
at the end of the text). -/
def lookAheadMark (s : Str) : Bool :=
  s.getD 0 'x' = '\n' && s.getD 1 'x' = '#' && s.getD 2 'x' = '#' &&
  pyWsChar (s.getD 3 'x')

/-- Length of the lazy `.*?` body: the least number of consumed
characters after which the lookahead holds or the text ends (`\Z`). -/
def lazyLen : Str → Nat
  | [] => 0
  | c :: rest => if lookAheadMark (c :: rest) then 0 else 1 + lazyLen rest

/-- Match `##\s*(\d{4}-\d{2}-\d{2})` at the start of `suf`: on success,
the number of characters consumed and the date token.  (The whitespace
run is maximal; since the date begins with a digit, backtracking cannot
shorten it.) -/
def matchHeader (suf : Str) : Option (Nat × Str) :=
  if suf.getD 0 'x' = '#' && suf.getD 1 'x' = '#' then
    let rest := suf.drop 2
    let w := (rest.takeWhile pyWsChar).length
    let d := (rest.drop w).take 10
    if dateShape d then some (2 + w + 10, d) else none
  else none

/-- The `finditer` loop: walks the text one character at a time
carrying the number of positions still covered by the previous match
(`skip`) and the absolute position (`pos`); emits
`(date, section_content, start_idx)` triples where `section_content`
is the matched text with its leading newline stripped, exactly as the
script stores them. -/
def scanAux : Str → Nat → Nat → List (Str × Str × Nat)
  | [], _, _ => []
  | _ :: rest, k + 1, pos => scanAux rest k (pos + 1)
  | c :: rest, 0, pos =>
    match (if pos = 0 then matchHeader (c :: rest) else none) with
    | some (hl, d) =>
      let tot := hl + lazyLen ((c :: rest).drop hl)
      (d, lstripNl ((c :: rest).take tot), pos) :: scanAux rest (tot - 1) (pos + 1)
    | none =>
      match (if c = '\n' then matchHeader rest else none) with
      | some (hl, d) =>
        let tot := 1 + hl + lazyLen (rest.drop hl)
        (d, lstripNl ((c :: rest).take tot), pos) :: scanAux rest (tot - 1) (pos + 1)
      | none => scanAux rest 0 (pos + 1)

/-- All DateSections of a document, in order of occurrence. -/
def scanSections (content : Str) : List (Str × Str × Nat) :=
  scanAux content 0 0

/-- The common splice step of `update_markdown_file`: given the text
before the splice point (already `rstrip('\n')`-ed), the freshly
rendered section, and the text from the splice point on, assemble the
new document exactly as the script does (conditional newline glue on
both sides, `lstrip('\n')` of the tail, and the final
`.strip() + '\n'` of the write). -/
def spliceAt (before pc after : Str) : Str :=
  let nc1 := if ¬ before = [] ∧ ¬ before.getLast? = some '\n' then before ++ str "\n" else before
  let nc2 := nc1 ++ str "\n" ++ pc
  let nc3 := if ¬ after = [] ∧ ¬ after.head? = some '\n' then nc2 ++ str "\n" else nc2
  pyStrip (nc3 ++ lstripNl after) ++ str "\n"

/-- `update_markdown_file`, functionally: takes the current document
text and returns the text the script would write.  An empty record
list returns the input unchanged (the script prints and returns before
reading or writing the file).  Otherwise: replace the first existing
section for the target date in place, else insert the new section
before the first section with a strictly later date, else append it at
the end. -/
def updateMarkdownFile (existingContent : Str) (papers : List Paper) (dateStr : Str) : Str :=
  if papers = [] then existingContent
  else
    let allSections := scanSections existingContent
    let pc := papersContent papers dateStr
    match allSections.find? (fun s => s.1 == dateStr) with
    | some (_, sc, startIdx) =>
      let before := rstripNl (existingContent.take startIdx)
      let afterIdx := startIdx + sc.length
      spliceAt before pc (existingContent.drop afterIdx)
    | none =>
      match allSections.find? (fun s => strLt dateStr s.1) with
      | some (_, _, insertIdx) =>
        spliceAt (rstripNl (existingContent.take insertIdx)) pc (existingContent.drop insertIdx)
      | none =>
        pyStrip (pyRstrip existingContent ++ str "\n\n" ++ pc) ++ str "\n"

/-- The document-mutating effect of one `process_papers_by_date` run
(after the external ledger check): the classification loop runs over
the parsed entries; when it retains nothing the run returns before
touching the document; otherwise the records are enriched concurrently
and collected in completion order (`collected` is that sequence, a
permutation of the enriched batch), and the Assembler rewrites the
weekly document. -/
def processRunDoc (cats : List Str) (entries : List Paper) (collected : List Paper)
    (content : Str) (dateStr : Str) : Str :=
  if fetchArxivPapers cats entries = [] then content
  else updateMarkdownFile content collected dateStr

/-! ### The summarization-response field parser -/

/-- Case-insensitive label test: `line.lower().startswith(label)`. -/
def lowerStarts (label : Str) (line : Str) : Bool :=
  label.isPrefixOf (pyLower line)

/-- `line.split(':', 1)[1]`: the text after the first colon (every call
site is guarded by a label test, so a colon is present). -/
def afterFirstColon : Str → Str
  | [] => []
  | c :: r => if c = ':' then r else afterFirstColon r

/-- Mutable state of the response-parsing loop of
`call_api_for_tags_institution_interest`. -/
structure ParseState where
  tag1 : Str := []
  tag2 : Str := []
  tag3 : Str := []
  institution : Str := []
  reading : Bool := false
  summaryLines : List Str := []
  deriving DecidableEq, Repr

/-- The `for line in lines` loop of the response parser. -/
def parseLoop : List Str → ParseState → ParseState
  | [], st => st
  | line :: rest, st =>
    if lowerStarts (str "tag1:") line then
      parseLoop rest { st with tag1 := pyStrip (afterFirstColon line) }
    else if lowerStarts (str "tag2:") line then
      parseLoop rest { st with tag2 := pyStrip (afterFirstColon line) }
    else if lowerStarts (str "tag3:") line then
      parseLoop rest { st with tag3 := pyStrip (afterFirstColon line) }
    else if lowerStarts (str "institution:") line then
      parseLoop rest { st with institution := pyStrip (afterFirstColon line) }
    else if lowerStarts (str "llm_summary:") line then
      let sl := pyStrip (afterFirstColon line)
      parseLoop rest
        { st with reading := true,
                  summaryLines := st.summaryLines ++ (if ¬ sl = [] then [sl] else []) }
    else if st.reading then
      parseLoop rest { st with summaryLines := st.summaryLines ++ [line] }
    else parseLoop rest st

/-- The stripped, non-empty lines of the (stripped) response text. -/
def responseLines (resp : Str) : List Str :=
  ((splitNl (pyStrip resp)).map pyStrip).filter (fun l => ¬ l = [])

/-- The pure field extraction of
`call_api_for_tags_institution_interest`: from the service's response
text to `(tag1, tag2, tag3_list, institution, llm_summary)`. -/
def parseResponse (resp : Str) : Str × Str × List Str × Str × Str :=
  let st := parseLoop (responseLines resp) {}
  let llm := if ¬ st.summaryLines = [] then
      pyStrip (List.intercalate (str " ") st.summaryLines)
    else []
  let tag3List := ((splitComma st.tag3).map pyStrip).filter (fun t => ¬ t = [])
  (st.tag1, st.tag2, tag3List, st.institution, llm)

/-! ### Concrete records used by counterexamples and witnesses -/

/-- A raw parsed entry: `cs.AI`, summary mentioning reinforcement
learning. -/
def rawRL : Paper :=
  { id := str "I", title := str "T", authors := [], summary := str "reinforcement learning",
    pdf_link := str "L", categories := [str "cs.AI"], replaced := false }

/-- A second raw parsed entry of the same kind, distinct title/id. -/
def rawRL2 : Paper :=
  { id := str "J", title := str "U", authors := [], summary := str "reinforcement learning",
    pdf_link := str "M", categories := [str "cs.AI"], replaced := false }

/-- A raw `cs.DC` entry. -/
def rawDC : Paper :=
  { id := str "K", title := str "V", authors := [], summary := str "s",
    pdf_link := str "N/A", categories := [str "cs.DC"], replaced := false }

/-- A raw gated entry whose summary matches both keywords. -/
def rawBoth : Paper :=
  { id := str "B", title := str "W", authors := [], summary := str "reinforcement learning accelerates",
    pdf_link := str "N/A", categories := [str "cs.AI"], replaced := false }

/-- An entry with no qualifying category (dropped by the filters). -/
def rawNone : Paper :=
  { id := str "x", title := str "t1", authors := [], summary := str "s",
    pdf_link := str "N/A", categories := [], replaced := false }

/-- A later entry with the same identifier as `rawNone` but `cs.DC`
categories (passes the filters). -/
def rawNoneDup : Paper :=
  { id := str "x", title := str "t2", authors := [], summary := str "s",
    pdf_link := str "N/A", categories := [str "cs.DC"], replaced := false }

/-- The record `rawRL` as it reaches the Document Assembler: classified
(keyword flags set) and enriched on the simplified path. -/
def procRL : Paper := processSingle (fun _ => none) (classifyStep mainCats rawRL).1

/-- The record `rawRL2` after the same pipeline. -/
def procRL2 : Paper := processSingle (fun _ => none) (classifyStep mainCats rawRL2).1

/-- An existing weekly document holding one section, for a date later
than the one being processed. -/
def bugDoc : Str := str "# t\n\n## 2024-01-05\n\nB\n"

/-- The target date of the `bugDoc` runs. -/
def bugDate : Str := str "2024-01-03"

/-- The DateSection bodies stored for a given date by the scanner, in
order of occurrence. -/
def sectionBodiesFor (dateStr content : Str) : List Str :=
  ((scanSections content).filter (fun s => s.1 == dateStr)).map (fun s => s.2.1)

/-- A record passes the per-entry filter when it is not a revision and
the classification branch sets `should_add`. -/
def passesFilter (cats : List Str) (p : Paper) : Bool :=
  !p.replaced && (classifyStep cats p).2

/-- First-occurrence deduplication by identifier with an initial seen
set. -/
def dedupById (seen : List Str) : List Paper → List Paper
  | [] => []
  | p :: ps =>
    if p.id ∈ seen then dedupById seen ps
    else p :: dedupById (p.id :: seen) ps

/-! ### Escaping (C8) -/

/-- The per-character action of the summary escaping chain. -/
def replChar (c : Char) : Str :=
  if c = '<' then str "&lt;"
  else if c = '>' then str "&gt;"
  else if c = '\x7b' then str "\\\x7b"
  else if c = '\x7d' then str "\\\x7d"
  else [c]

/-- Scanner deciding that every brace occurrence is immediately
preceded by a backslash (the "escaped" literal-text form). -/
def bracesEscaped : Str → Bool
  | [] => true
  | [c] => !(c = '\x7b' || c = '\x7d')
  | c :: d :: rest =>
    if c = '\x7b' || c = '\x7d' then false
    else if c = '\\' && (d = '\x7b' || d = '\x7d') then bracesEscaped rest
    else bracesEscaped (d :: rest)

/-- Escaped text never begins with a brace. -/
def headNotBrace : Str → Bool
  | [] => true
  | c :: _ => !(c = '\x7b' || c = '\x7d')

/-- A concrete enriched `cs.DC` record whose summary holds literal
angle brackets and braces. -/
def exDCsum : Paper :=
  { rawDC with llm_summary := some (str "a<b>\x7bc\x7d d") }

/-! ### Response parsing (C9) -/

/-- A line carrying one of the five recognized field labels. -/
def isFieldLabelLine (l : Str) : Bool :=
  lowerStarts (str "tag1:") l || lowerStarts (str "tag2:") l ||
  lowerStarts (str "tag3:") l || lowerStarts (str "institution:") l ||
  lowerStarts (str "llm_summary:") l

/-- Declarative description of the collected summary pieces: every
`llm_summary:`-labelled line contributes its non-empty remainder; the
other labelled lines contribute nothing (but do not stop collection);
every unlabelled line after the first summary label is collected. -/
def summaryPieces : List Str → Bool → List Str
  | [], _ => []
  | l :: rest, started =>
    if lowerStarts (str "tag1:") l ∨ lowerStarts (str "tag2:") l ∨
       lowerStarts (str "tag3:") l ∨ lowerStarts (str "institution:") l then
      summaryPieces rest started
    else if lowerStarts (str "llm_summary:") l then
      (let t := pyStrip (afterFirstColon l); if ¬ t = [] then [t] else []) ++
        summaryPieces rest true
    else if started then l :: summaryPieces rest started
    else summaryPieces rest started

/-! ### Well-formed documents (C7)

A document the merge maintains is a header (the `# <range>` title,
free of section markers) followed by section blocks.  Every block as
serialized by the merge consists of an optional extra blank-line
newline, the marker newline, the `## ` header with a ten-character
date, and the tail of the block — everything up to the next block's
marker (exclusive).  A tail is *clean* when no position inside it
starts the section-boundary lookahead `\n##\s`, even when a newline
follows it (every block is followed by a newline or the final newline
of the document). -/

/-- One DateSection block of a serialized document. -/
structure Blk where
  pad : Bool
  date : Str
  tail : Str
  deriving DecidableEq, Repr

/-- The text of one block. -/
def blkText (b : Blk) : Str :=
  (if b.pad then [('\n' : Char)] else []) ++ str "\n## " ++ b.date ++ b.tail

/-- The text of a block sequence. -/
def blksText (bs : List Blk) : Str := (bs.map blkText).flatten

/-- The text of a block sequence with the leading pad newline of its
first block removed (the form at which the scanner sits right on a
marker newline). -/
def blksTextTail : List Blk → Str
  | [] => []
  | b :: bs => str "\n## " ++ b.date ++ b.tail ++ blksText bs

/-- The pad newline contributed by the next block, which the lazy body
of the previous section absorbs. -/
def nextPadNl : List Blk → Str
  | [] => []
  | b :: _ => if b.pad then [('\n' : Char)] else []

/-- The length contributed by the first block's pad newline. -/
def padLen : List Blk → Nat
  | [] => 0
  | b :: _ => if b.pad then 1 else 0

/-- No position of the text starts the section-boundary lookahead. -/
def noMarkIn : Str → Bool
  | [] => true
  | c :: r => !lookAheadMark (c :: r) && noMarkIn r

/-- A clean block tail: no lookahead occurrence, even with the newline
that always follows a block appended. -/
def tailOk (t : Str) : Bool := noMarkIn (t ++ [('\n' : Char)])

/-- Well-formedness of the block sequence: every date has the
`\d{4}-\d{2}-\d{2}` shape and every tail is clean. -/
def BlocksOk (bs : List Blk) : Prop :=
  ∀ b ∈ bs, dateShape b.date = true ∧ tailOk b.tail = true

/-- The header text contains no `##`. -/
def noDoubleHash : Str → Bool
  | [] => true
  | [_] => true
  | a :: b :: r => !(a = '#' && b = '#') && noDoubleHash (b :: r)

/-- Well-formedness of the header: non-empty, beginning with a
non-whitespace character, and free of `##`. -/
def HeadOk (h : Str) : Prop :=
  pyWsChar (h.getD 0 ' ') = false ∧ noDoubleHash h = true

/-- The scan result a well-formed document produces: one triple per
block, the section content running to the next block's marker newline
(exclusive) and absorbing its pad newline, the start index sitting on
the marker newline. -/
def expectedAt : List Blk → Nat → List (Str × Str × Nat)
  | [], _ => []
  | b :: bs, pos =>
    (b.date, str "## " ++ b.date ++ b.tail ++ nextPadNl bs, pos) ::
      expectedAt bs (pos + 4 + b.date.length + b.tail.length + (nextPadNl bs).length)

/-! ### Adjusting the final block of a serialized document -/

/-- Apply `f` to the tail of the last block. -/
def adjTailLast (f : Str → Str) : List Blk → List Blk
  | [] => []
  | [b] => [{ b with tail := f b.tail }]
  | b :: bs => b :: adjTailLast f bs

/-- A concrete weekly document for exercising the merge: a one-line
header and sections for 2024-01-01 and 2024-01-05. -/
def headC7 : Str := str "# 2024\n"

def blksC7 : List Blk :=
  [{ pad := false, date := str "2024-01-01", tail := str "\n\nA" },
   { pad := false, date := str "2024-01-05", tail := str "\n\nB" }]

/-- The rendered body of the 2024-01-03 section for the single record
`procRL`, between the date header and the trailing newline. -/
def pcCoreC7 : Str :=
  str "\n\n**cs.DC total: 0**\n\n\n**cs.AI/cs.LG contains \"reinforcement learning\" total: 1**\n- [arXiv240103] T [link](L)\n\n**cs.AI/cs.LG contains \"accelerate\" total: 0**"

/-! ### Classification lemmas -/

/-- Classification never changes a record's identifier. -/
theorem classifyStep_id (cats : List Str) (p : Paper) :
    ((classifyStep cats p).1).id = p.id := by
  unfold classifyStep
  split
  · rfl
  · split
    · split
      · rfl
      · rfl
    · rfl

/-- The retention loop equals: filter by the per-entry predicate, keep
the first occurrence of each identifier, annotate with the
classification flags. -/
theorem fetchLoop_eq (cats : List Str) :
    ∀ (l : List Paper) (seen : List Str),
      fetchLoop cats seen l =
        (dedupById seen (l.filter (passesFilter cats))).map
          (fun p => (classifyStep cats p).1) := by
  intro l
  induction l with
  | nil => intro seen; rfl
  | cons p ps ih =>
    intro seen
    by_cases hseen : p.id ∈ seen
    · by_cases hpass : passesFilter cats p = true
      · simp only [fetchLoop, List.filter_cons, hpass, if_pos, dedupById, hseen, if_true,
          ite_true]
        have hrep : p.replaced = false := by
          simp only [passesFilter, Bool.and_eq_true, Bool.not_eq_true'] at hpass
          exact hpass.1
        simp [hseen, ih]
      · simp only [fetchLoop, List.filter_cons, hpass, if_neg, dedupById]
        simp [hseen, ih, hpass]
    · by_cases hrep : p.replaced = true
      · have hpass : passesFilter cats p = false := by
          simp [passesFilter, hrep]
        simp [fetchLoop, hseen, hrep, List.filter_cons, hpass, ih]
      · by_cases hadd : (classifyStep cats p).2 = true
        · have hpass : passesFilter cats p = true := by
            simp [passesFilter, hrep, hadd]
          simp [fetchLoop, hseen, hrep, hadd, List.filter_cons, hpass, dedupById, ih]
        · have hpass : passesFilter cats p = false := by
            simp [passesFilter, hrep, hadd]
          simp [fetchLoop, hseen, hrep, hadd, List.filter_cons, hpass, ih]

/-- Every record surviving deduplication has an identifier outside the
seen set. -/
theorem dedupById_id_not_seen :
    ∀ (l : List Paper) (seen : List Str) (p : Paper),
      p ∈ dedupById seen l → p.id ∉ seen := by
  intro l
  induction l with
  | nil => intro seen p h; simp [dedupById] at h
  | cons q qs ih =>
    intro seen p h
    by_cases hq : q.id ∈ seen
    · exact ih seen p (by simpa [dedupById, hq] using h)
    · simp only [dedupById, hq, if_neg, if_false] at h
      rcases List.mem_cons.mp (by simpa using h) with rfl | hmem
      · exact hq
      · have := ih (q.id :: seen) p hmem
        intro hc; exact this (List.mem_cons_of_mem _ hc)

/-- Deduplication yields pairwise-distinct identifiers. -/
theorem dedupById_nodup :
    ∀ (l : List Paper) (seen : List Str),
      ((dedupById seen l).map (fun p => p.id)).Nodup := by
  intro l
  induction l with
  | nil => intro seen; simp [dedupById]
  | cons q qs ih =>
    intro seen
    by_cases hq : q.id ∈ seen
    · simpa [dedupById, hq] using ih seen
    · simp only [dedupById, hq, if_neg, if_false, List.map_cons, List.nodup_cons]
      refine ⟨?_, ih (q.id :: seen)⟩
      intro hmem
      rcases List.mem_map.mp hmem with ⟨r, hr, hrid⟩
      exact dedupById_id_not_seen qs (q.id :: seen) r hr (by simp [hrid])

/-- Deduplication only discards elements. -/
theorem dedupById_subset :
    ∀ (l : List Paper) (seen : List Str) (p : Paper),
      p ∈ dedupById seen l → p ∈ l := by
  intro l
  induction l with
  | nil => intro seen p h; simp [dedupById] at h
  | cons q qs ih =>
    intro seen p h
    by_cases hq : q.id ∈ seen
    · exact List.mem_cons_of_mem _ (ih seen p (by simpa [dedupById, hq] using h))
    · simp only [dedupById, hq, if_neg, if_false] at h
      rcases List.mem_cons.mp (by simpa using h) with rfl | hmem
      · exact List.mem_cons_self _ _
      · exact List.mem_cons_of_mem _ (ih (q.id :: seen) p hmem)

/-- A record whose identifier is fresh and unique among the remaining
entries survives deduplication. -/
theorem mem_dedupById :
    ∀ (l : List Paper) (seen : List Str) (p : Paper),
      p ∈ l → p.id ∉ seen → (∀ q ∈ l, q.id = p.id → q = p) →
      p ∈ dedupById seen l := by
  intro l
  induction l with
  | nil => intro seen p h; simp at h
  | cons q qs ih =>
    intro seen p hmem hfresh huniq
    rcases List.mem_cons.mp hmem with rfl | hmem'
    · simp [dedupById, hfresh]
    · by_cases hq : q.id ∈ seen
      · simp only [dedupById, hq, if_pos, if_true]
        exact ih seen p hmem' hfresh (fun r hr => huniq r (List.mem_cons_of_mem _ hr))
      · simp only [dedupById, hq, if_neg, if_false]
        by_cases hqp : q = p
        · subst hqp; exact List.mem_cons_self _ _
        · have hqid : q.id ≠ p.id := fun h => hqp (huniq q (List.mem_cons_self _ _) h)
          refine List.mem_cons_of_mem _ ?_
          refine ih (q.id :: seen) p hmem' ?_
            (fun r hr => huniq r (List.mem_cons_of_mem _ hr))
          intro h
          rcases List.mem_cons.mp h with h1 | h2
          · exact hqid h1.symm
          · exact hfresh h2

/-- Classification never changes a record's category set. -/
theorem classifyStep_categories (cats : List Str) (p : Paper) :
    ((classifyStep cats p).1).categories = p.categories := by
  unfold classifyStep
  split
  · rfl
  · split
    · split
      · rfl
      · rfl
    · rfl

/-! ### Claim theorems -/

/-- C10: invoking the Document Assembler with an empty record list
returns without performing any write: the document text is unchanged,
byte for byte. -/
theorem C10_empty_records_frame (content dateStr : Str) :
    updateMarkdownFile content [] dateStr = content := by
  simp [updateMarkdownFile]

/-- C2 counterexample: a run whose retained record set is empty leaves
the document byte-identical and adds no DateSection for the target
date — the claimed no-results placeholder section is never produced. -/
theorem C2_counterexample :
    updateMarkdownFile (str "# t\n\n") [] (str "2024-01-03") = str "# t\n\n" ∧
    containsSub (str "## 2024-01-03")
      (updateMarkdownFile (str "# t\n\n") [] (str "2024-01-03")) = false := by
  constructor
  · exact C10_empty_records_frame _ _
  · rw [C10_empty_records_frame]; decide

/-- C2 amended: with an empty retained record set the Document
Assembler returns before reading or writing the document, and a run of
the pipeline whose classification stage retains nothing likewise leaves
the document unmutated; no DateSection (and no placeholder) is written
for the target date. -/
theorem C2_amended_empty_run_no_mutation :
    (∀ (content dateStr : Str), updateMarkdownFile content [] dateStr = content) ∧
    (∀ (cats : List Str) (entries collected : List Paper) (content dateStr : Str),
      fetchArxivPapers cats entries = [] →
      processRunDoc cats entries collected content dateStr = content) := by
  constructor
  · intro c d; simp [updateMarkdownFile]
  · intro cats e col c d h; simp [processRunDoc, h]

/-- C2 amended, witnessed at a concrete run: no entries retained, the
document is returned unchanged. -/
theorem C2_amended_witness :
    processRunDoc mainCats [] [] (str "# t\n\n") (str "2024-01-03") = str "# t\n\n" :=
  C2_amended_empty_run_no_mutation.2 mainCats [] [] (str "# t\n\n") (str "2024-01-03")
    (by decide)

/-- C3 counterexample: two entries share identifier `"x"`; the first
fails every classification filter (empty category set) and the second
carries `cs.DC`.  The engine retains the *second* entry — a later entry
with a repeated identifier is not dropped when the first was filtered
out, contradicting the claim that the first in listing order wins and
all later ones are dropped. -/
theorem C3_counterexample :
    fetchArxivPapers mainCats [rawNone, rawNoneDup] = [rawNoneDup] ∧
    rawNone.id = rawNoneDup.id ∧ ¬ rawNoneDup = rawNone := by
  decide

/-- C3 amended: the engine retains at most one record per identifier —
namely the first entry in listing order that passes the revision and
classification filters, annotated with its keyword flags; later entries
with an already-retained identifier are dropped, but entries preceding
the first passing one do not claim the identifier. -/
theorem C3_amended_first_passing_wins (cats : List Str) (l : List Paper) :
    fetchArxivPapers cats l =
      (dedupById [] (l.filter (passesFilter cats))).map
        (fun p => (classifyStep cats p).1) ∧
    ((fetchArxivPapers cats l).map (fun p => p.id)).Nodup := by
  refine ⟨fetchLoop_eq cats l [], ?_⟩
  rw [fetchArxivPapers, fetchLoop_eq cats l [], List.map_map]
  have hc : ((fun p : Paper => p.id) ∘ fun p => (classifyStep cats p).1) =
      (fun p : Paper => p.id) := by
    funext p
    exact classifyStep_id cats p
  rw [hc]
  exact dedupById_nodup _ []

/-- C4 counterexample: the same enriched batch collected in two
different completion orders renders two different documents — the
rendered section is not independent of enrichment completion order. -/
theorem C4_counterexample :
    List.Perm [procRL, procRL2] [procRL2, procRL] ∧
    ¬ papersContent [procRL, procRL2] bugDate = papersContent [procRL2, procRL] bugDate := by
  constructor
  · exact List.Perm.swap _ _ _
  · decide

/-- C4 amended: the final rendering order within each group is the
relative order of the collected (completion-order) sequence — each
rendered group is a sublist of the collected sequence, so the document
is determined by, and dependent on, the order in which enrichment
results were collected, not by the classification stage's original
ordering. -/
theorem C4_amended_groups_follow_collection (l : List Paper) :
    (csdcPapers l).Sublist l ∧ (rlPapers l).Sublist l ∧
    (acceleratPapers l).Sublist l := by
  refine ⟨List.filter_sublist _, ?_, ?_⟩
  · exact (List.filter_sublist _).trans (List.filter_sublist _)
  · exact (List.filter_sublist _).trans (List.filter_sublist _)

/-- C5: a parsed, non-revision record whose identifier is unique in the
snapshot and whose category set contains `cs.DC` is always retained —
its summary is never consulted — and membership in the rendered primary
group is exactly membership of `cs.DC` in the category set. -/
theorem C5_primary_group (cats : List Str) (l : List Paper) (p : Paper)
    (hmem : p ∈ l) (hrep : p.replaced = false)
    (hdc : (str "cs.DC") ∈ p.categories)
    (huniq : ∀ q ∈ l, q.id = p.id → q = p) :
    p ∈ fetchArxivPapers cats l ∧
    (∀ (L : List Paper) (q : Paper),
      q ∈ csdcPapers L ↔ (q ∈ L ∧ (str "cs.DC") ∈ q.categories)) := by
  constructor
  · have hclass : classifyStep cats p = (p, true) := by
      unfold classifyStep
      rw [if_pos hdc]
    have hpass : passesFilter cats p = true := by
      simp [passesFilter, hrep, hclass]
    rw [fetchArxivPapers, fetchLoop_eq]
    have hmemf : p ∈ l.filter (passesFilter cats) := List.mem_filter.mpr ⟨hmem, hpass⟩
    have huniqf : ∀ q ∈ l.filter (passesFilter cats), q.id = p.id → q = p :=
      fun q hq => huniq q (List.mem_filter.mp hq).1
    have hd := mem_dedupById _ [] p hmemf (by simp) huniqf
    refine List.mem_map.mpr ⟨p, hd, ?_⟩
    rw [hclass]
  · intro L q
    constructor
    · intro hq
      have hf := List.mem_filter.mp hq
      refine ⟨hf.1, ?_⟩
      rcases List.any_eq_true.mp hf.2 with ⟨c, hc, hceq⟩
      have hcd : c = str "cs.DC" := by simpa using hceq
      rw [← hcd]
      exact hc
    · rintro ⟨hqL, hqdc⟩
      refine List.mem_filter.mpr ⟨hqL, ?_⟩
      exact List.any_eq_true.mpr ⟨_, hqdc, by simp⟩

/-- C5 witness: a concrete `cs.DC` record is retained and belongs to
the primary group. -/
theorem C5_witness :
    rawDC ∈ fetchArxivPapers mainCats [rawDC] ∧ rawDC ∈ csdcPapers [rawDC] := by
  have h := C5_primary_group mainCats [rawDC] rawDC (by decide) (by decide) (by decide)
    (by decide)
  exact ⟨h.1, (h.2 [rawDC] rawDC).mpr ⟨by simp, by decide⟩⟩

/-- C6: a non-primary, non-revision record with a unique identifier
whose category set meets the keyword-gated subset (`cs.AI`/`cs.LG`) is
retained (under the run's configured allowlist) exactly when its
lowercased summary contains one of the configured keywords; the two
keyword predicates are recorded independently on the record, and a
record carrying both flags belongs to both rendered keyword groups. -/
theorem C6_keyword_gate (l : List Paper) (p : Paper)
    (hmem : p ∈ l) (hrep : p.replaced = false)
    (hnotdc : ¬ (str "cs.DC") ∈ p.categories)
    (hgated : p.categories.any (fun c => c ∈ gatedCats) = true)
    (huniq : ∀ q ∈ l, q.id = p.id → q = p) :
    (((classifyStep mainCats p).1).rl_match = containsSub rlKw (pyLower p.summary) ∧
     ((classifyStep mainCats p).1).accelerat_match = containsSub accKw (pyLower p.summary)) ∧
    ((classifyStep mainCats p).1 ∈ fetchArxivPapers mainCats l ↔
      (containsSub rlKw (pyLower p.summary) || containsSub accKw (pyLower p.summary)) = true) ∧
    (∀ (L : List Paper), (classifyStep mainCats p).1 ∈ L →
      (((classifyStep mainCats p).1.rl_match = true →
          (classifyStep mainCats p).1 ∈ rlPapers L) ∧
       ((classifyStep mainCats p).1.accelerat_match = true →
          (classifyStep mainCats p).1 ∈ acceleratPapers L))) := by
  have hcats : mainCats.any (fun c => c ∈ p.categories) = true := by
    rcases List.any_eq_true.mp hgated with ⟨c, hcp, hcg⟩
    refine List.any_eq_true.mpr ⟨c, ?_, by simpa using hcp⟩
    have hg : c ∈ gatedCats := by simpa using hcg
    simp only [gatedCats, List.mem_cons, List.mem_singleton, List.not_mem_nil, or_false] at hg
    rcases hg with rfl | rfl
    · simp [mainCats]
    · simp [mainCats]
  have hclass : classifyStep mainCats p =
      ({ p with rl_match := containsSub rlKw (pyLower p.summary),
                accelerat_match := containsSub accKw (pyLower p.summary) },
        containsSub rlKw (pyLower p.summary) || containsSub accKw (pyLower p.summary)) := by
    unfold classifyStep
    rw [if_neg hnotdc, if_pos hcats, if_pos hgated]
  refine ⟨by rw [hclass]; exact ⟨rfl, rfl⟩, ?_, ?_⟩
  · constructor
    · intro hin
      rw [fetchArxivPapers, fetchLoop_eq] at hin
      rcases List.mem_map.mp hin with ⟨r, hr, hreq⟩
      have hrf := dedupById_subset _ _ _ hr
      have hrl := (List.mem_filter.mp hrf).1
      have hrpass := (List.mem_filter.mp hrf).2
      have hrid : r.id = p.id := by
        have h1 := classifyStep_id mainCats r
        have h2 := classifyStep_id mainCats p
        rw [← h1, ← h2, hreq]
      have hrp : r = p := huniq r hrl hrid
      subst hrp
      have := hrpass
      rw [passesFilter, hrep, hclass] at this
      simpa using this
    · intro hkw
      have hpass : passesFilter mainCats p = true := by
        rw [passesFilter, hrep, hclass]
        simpa using hkw
      rw [fetchArxivPapers, fetchLoop_eq]
      have hmemf : p ∈ l.filter (passesFilter mainCats) :=
        List.mem_filter.mpr ⟨hmem, hpass⟩
      have huniqf : ∀ q ∈ l.filter (passesFilter mainCats), q.id = p.id → q = p :=
        fun q hq => huniq q (List.mem_filter.mp hq).1
      exact List.mem_map.mpr ⟨p, mem_dedupById _ [] p hmemf (by simp) huniqf, rfl⟩
  · intro L hqL
    have hqcat : ((classifyStep mainCats p).1).categories = p.categories :=
      classifyStep_categories mainCats p
    have hnone : (((classifyStep mainCats p).1).categories.any
        (fun c => c = str "cs.DC")) = false := by
      rw [hqcat, List.any_eq_false]
      intro c hc
      simp only [decide_eq_true_eq]
      intro hcd
      exact hnotdc (hcd ▸ hc)
    have hother : (classifyStep mainCats p).1 ∈ otherPapers L :=
      List.mem_filter.mpr ⟨hqL, by simp [hnone]⟩
    constructor
    · intro hflag
      exact List.mem_filter.mpr ⟨hother, by simp [hflag]⟩
    · intro hflag
      exact List.mem_filter.mpr ⟨hother, by simp [hflag]⟩

/-- C6 witness: a concrete gated record whose summary contains both
keywords is retained with both flags set and appears in both keyword
groups. -/
theorem C6_witness :
    (classifyStep mainCats rawBoth).1 ∈ fetchArxivPapers mainCats [rawBoth] ∧
    (classifyStep mainCats rawBoth).1 ∈ rlPapers [(classifyStep mainCats rawBoth).1] ∧
    (classifyStep mainCats rawBoth).1 ∈ acceleratPapers [(classifyStep mainCats rawBoth).1] := by
  have h := C6_keyword_gate [rawBoth] rawBoth (by decide) (by decide) (by decide)
    (by decide) (by decide)
  have hmem : (classifyStep mainCats rawBoth).1 ∈ [(classifyStep mainCats rawBoth).1] :=
    List.mem_singleton.mpr rfl
  refine ⟨h.2.1.mpr (by decide), ?_, ?_⟩
  · exact (h.2.2 _ hmem).1 (by decide)
  · exact (h.2.2 _ hmem).2 (by decide)

/-- C1: evaluation of the Document Assembler at a failing input.  The
existing document holds a section for a later date (`2024-01-05`);
running the Assembler twice for `2024-01-03` with the identical record
batch yields a different stored DateSection the second time: the
replace-in-place path computes the end of the old section from the
length of the newline-stripped section content while the stored start
index still counts the leading newline, so the old section's final
character (`*`) is left behind as a stray line inside the re-written
section.  Both runs leave exactly one section for the date, but the
sections are not byte-identical. -/
theorem C1_replace_in_place_bug :
    ¬ sectionBodiesFor bugDate (updateMarkdownFile bugDoc [procRL] bugDate) =
      sectionBodiesFor bugDate
        (updateMarkdownFile (updateMarkdownFile bugDoc [procRL] bugDate) [procRL] bugDate) ∧
    (sectionBodiesFor bugDate (updateMarkdownFile bugDoc [procRL] bugDate)).length = 1 ∧
    (sectionBodiesFor bugDate
      (updateMarkdownFile (updateMarkdownFile bugDoc [procRL] bugDate) [procRL] bugDate)).length = 1 ∧
    containsSub (str "\n*\n")
      (updateMarkdownFile (updateMarkdownFile bugDoc [procRL] bugDate) [procRL] bugDate) = true ∧
    containsSub (str "\n*\n") (updateMarkdownFile bugDoc [procRL] bugDate) = false := by
  set_option maxRecDepth 100000 in decide

theorem pyReplaceChar_cons (a : Char) (r : Str) (c : Char) (s : Str) :
    pyReplaceChar a r (c :: s) = (if c = a then r else [c]) ++ pyReplaceChar a r s := by
  simp [pyReplaceChar]

theorem pyReplaceChar_append (a : Char) (r : Str) (s t : Str) :
    pyReplaceChar a r (s ++ t) = pyReplaceChar a r s ++ pyReplaceChar a r t := by
  simp [pyReplaceChar]

/-- The four chained `replace` calls act character-wise: no replacement
string contains a character replaced by a later stage. -/
theorem escapeSummary_flatMap (s : Str) : escapeSummary s = s.flatMap replChar := by
  induction s with
  | nil => rfl
  | cons c s ih =>
    have hstep : escapeSummary (c :: s) = replChar c ++ escapeSummary s := by
      unfold escapeSummary
      rw [pyReplaceChar_cons, pyReplaceChar_append, pyReplaceChar_append,
        pyReplaceChar_append]
      congr 1
      by_cases h1 : c = '<'
      · subst h1; rfl
      · by_cases h2 : c = '>'
        · subst h2; rfl
        · by_cases h3 : c = '\x7b'
          · subst h3; rfl
          · by_cases h4 : c = '\x7d'
            · subst h4; rfl
            · simp [pyReplaceChar, replChar, h1, h2, h3, h4]
    rw [hstep, ih, List.flatMap_cons]

/-- No single-character replacement result contains an angle bracket. -/
theorem replChar_no_angle (c : Char) :
    ¬ '<' ∈ replChar c ∧ ¬ '>' ∈ replChar c := by
  by_cases h1 : c = '<'
  · subst h1; decide
  · by_cases h2 : c = '>'
    · subst h2; decide
    · by_cases h3 : c = '\x7b'
      · subst h3; decide
      · by_cases h4 : c = '\x7d'
        · subst h4; decide
        · have hc : replChar c = [c] := by simp [replChar, h1, h2, h3, h4]
          rw [hc]
          constructor
          · intro h
            exact h1 (List.mem_singleton.mp h).symm
          · intro h
            exact h2 (List.mem_singleton.mp h).symm

/-- Escaped text never contains an angle bracket. -/
theorem escapeSummary_no_angle (s : Str) :
    ¬ '<' ∈ escapeSummary s ∧ ¬ '>' ∈ escapeSummary s := by
  rw [escapeSummary_flatMap]
  induction s with
  | nil => simp
  | cons c s ih =>
    rw [List.flatMap_cons]
    constructor
    · intro h
      rcases List.mem_append.mp h with h | h
      · exact (replChar_no_angle c).1 h
      · exact ih.1 h
    · intro h
      rcases List.mem_append.mp h with h | h
      · exact (replChar_no_angle c).2 h
      · exact ih.2 h

theorem replChar_ne_nil (c : Char) : ¬ replChar c = [] := by
  by_cases h1 : c = '<'
  · subst h1; decide
  · by_cases h2 : c = '>'
    · subst h2; decide
    · by_cases h3 : c = '\x7b'
      · subst h3; decide
      · by_cases h4 : c = '\x7d'
        · subst h4; decide
        · simp [replChar, h1, h2, h3, h4]

theorem headNotBrace_flatMap (s t : Str) (ht : headNotBrace t = true) :
    headNotBrace (s.flatMap replChar ++ t) = true := by
  cases s with
  | nil => simpa using ht
  | cons c s =>
    rw [List.flatMap_cons, List.append_assoc]
    by_cases h1 : c = '<'
    · subst h1; rfl
    · by_cases h2 : c = '>'
      · subst h2; rfl
      · by_cases h3 : c = '\x7b'
        · subst h3; rfl
        · by_cases h4 : c = '\x7d'
          · subst h4; rfl
          · simp [replChar, h1, h2, h3, h4, headNotBrace]

/-- A non-brace, non-backslash head does not affect the brace scan. -/
theorem bracesEscaped_cons_plain (c : Char) (rest : Str)
    (hb : (c = '\x7b' || c = '\x7d') = false) (hbs : ¬ c = '\\') :
    bracesEscaped (c :: rest) = bracesEscaped rest := by
  cases rest with
  | nil => simp [bracesEscaped, hb]
  | cons d r => simp [bracesEscaped, hb, hbs]

theorem bracesEscaped_flatMap (s : Str) :
    ∀ t : Str, headNotBrace t = true → bracesEscaped t = true →
      bracesEscaped (s.flatMap replChar ++ t) = true := by
  induction s with
  | nil => intro t _ h2; simpa using h2
  | cons c s ih =>
    intro t ht1 ht2
    have hrest : bracesEscaped (s.flatMap replChar ++ t) = true :=
      ih t ht1 ht2
    have hheadrest : headNotBrace (s.flatMap replChar ++ t) = true :=
      headNotBrace_flatMap s t ht1
    rw [List.flatMap_cons, List.append_assoc]
    by_cases h1 : c = '<'
    · subst h1
      show bracesEscaped ('&' :: 'l' :: 't' :: ';' :: (s.flatMap replChar ++ t)) = true
      rw [bracesEscaped_cons_plain _ _ (by decide) (by decide),
        bracesEscaped_cons_plain _ _ (by decide) (by decide),
        bracesEscaped_cons_plain _ _ (by decide) (by decide),
        bracesEscaped_cons_plain _ _ (by decide) (by decide)]
      exact hrest
    · by_cases h2 : c = '>'
      · subst h2
        show bracesEscaped ('&' :: 'g' :: 't' :: ';' :: (s.flatMap replChar ++ t)) = true
        rw [bracesEscaped_cons_plain _ _ (by decide) (by decide),
          bracesEscaped_cons_plain _ _ (by decide) (by decide),
          bracesEscaped_cons_plain _ _ (by decide) (by decide),
          bracesEscaped_cons_plain _ _ (by decide) (by decide)]
        exact hrest
      · by_cases h3 : c = '\x7b'
        · subst h3
          show bracesEscaped ('\\' :: '\x7b' :: (s.flatMap replChar ++ t)) = true
          cases hrem : s.flatMap replChar ++ t with
          | nil => rfl
          | cons d r =>
            show bracesEscaped ('\\' :: '\x7b' :: d :: r) = true
            have : bracesEscaped (d :: r) = true := by rw [← hrem]; exact hrest
            simpa [bracesEscaped] using this
        · by_cases h4 : c = '\x7d'
          · subst h4
            show bracesEscaped ('\\' :: '\x7d' :: (s.flatMap replChar ++ t)) = true
            cases hrem : s.flatMap replChar ++ t with
            | nil => rfl
            | cons d r =>
              show bracesEscaped ('\\' :: '\x7d' :: d :: r) = true
              have : bracesEscaped (d :: r) = true := by rw [← hrem]; exact hrest
              simpa [bracesEscaped] using this
          · have hsingle : replChar c = [c] := by simp [replChar, h1, h2, h3, h4]
            rw [hsingle]
            by_cases hbs : c = '\\'
            · subst hbs
              cases hrem : s.flatMap replChar ++ t with
              | nil => rfl
              | cons d r =>
                have hd : (d = '\x7b' || d = '\x7d') = false := by
                  have := hheadrest
                  rw [hrem] at this
                  simpa [headNotBrace] using this
                have : bracesEscaped (d :: r) = true := by rw [← hrem]; exact hrest
                show bracesEscaped ('\\' :: d :: r) = true
                simpa [bracesEscaped, hd] using this
            · rw [List.singleton_append,
                bracesEscaped_cons_plain c _ (by simp [h3, h4]) hbs]
              exact hrest

/-- Every brace reaching the rendered summary is escaped. -/
theorem bracesEscaped_escapeSummary (s : Str) :
    bracesEscaped (escapeSummary s) = true := by
  rw [escapeSummary_flatMap]
  have h := bracesEscaped_flatMap s [] (by rfl) (by rfl)
  simpa using h

/-- C8: a primary-group record with a non-empty LLM summary renders in
the detailed format with the summary line escaped, and the escaped
summary contains no angle bracket and no brace that is not immediately
preceded by a backslash — nothing a downstream renderer would read as a
structural token survives from the summary. -/
theorem C8_summary_escaped (p : Paper) (d : Str)
    (hdc : p.categories.any (fun c => c = str "cs.DC") = true)
    (hsum : ¬ pyStrip (p.llm_summary.getD []) = []) :
    formatPaper p (some d) =
      str "- **" ++ getArxivDateTag d ++ str " " ++ p.title ++ str "**\n" ++
      str "  - **tags:** " ++
        (if tagTokens p = [] then str "TBD" else List.intercalate (str ", ") (tagTokens p)) ++
        str "\n" ++
      str "  - **authors:** " ++ List.intercalate (str ", ") p.authors ++ str "\n" ++
      str "  - **institution:** " ++ p.institution.getD (str "TBD") ++ str "\n" ++
      str "  - **link:** " ++ p.pdf_link ++ str "\n" ++
      (str "  - **Simple LLM Summary:** " ++
        escapeSummary (pyStrip (p.llm_summary.getD [])) ++ str "\n") ++
      str "\n" ∧
    ¬ '<' ∈ escapeSummary (pyStrip (p.llm_summary.getD [])) ∧
    ¬ '>' ∈ escapeSummary (pyStrip (p.llm_summary.getD [])) ∧
    bracesEscaped (escapeSummary (pyStrip (p.llm_summary.getD []))) = true := by
  refine ⟨?_, (escapeSummary_no_angle _).1, (escapeSummary_no_angle _).2,
    bracesEscaped_escapeSummary _⟩
  rw [formatPaper]
  rw [if_neg (by simpa using hdc)]
  simp only [if_pos hsum, List.append_assoc]

/-- C8 witness: the escaped summary of a concrete record renders in
the detailed entry with its brackets and braces neutralized. -/
theorem C8_witness :
    formatPaper exDCsum (some (str "2024-01-03")) =
      str "- **" ++ getArxivDateTag (str "2024-01-03") ++ str " " ++ exDCsum.title ++ str "**\n" ++
      str "  - **tags:** " ++
        (if tagTokens exDCsum = [] then str "TBD"
         else List.intercalate (str ", ") (tagTokens exDCsum)) ++
        str "\n" ++
      str "  - **authors:** " ++ List.intercalate (str ", ") exDCsum.authors ++ str "\n" ++
      str "  - **institution:** " ++ exDCsum.institution.getD (str "TBD") ++ str "\n" ++
      str "  - **link:** " ++ exDCsum.pdf_link ++ str "\n" ++
      (str "  - **Simple LLM Summary:** " ++
        escapeSummary (pyStrip (exDCsum.llm_summary.getD [])) ++ str "\n") ++
      str "\n" ∧
    ¬ '<' ∈ escapeSummary (pyStrip (exDCsum.llm_summary.getD [])) ∧
    ¬ '>' ∈ escapeSummary (pyStrip (exDCsum.llm_summary.getD [])) ∧
    bracesEscaped (escapeSummary (pyStrip (exDCsum.llm_summary.getD []))) = true :=
  C8_summary_escaped exDCsum (str "2024-01-03") (by decide) (by decide)

/-- The loop's collected summary lines are exactly the declarative
pieces, appended to whatever was already collected. -/
theorem parseLoop_summaryLines :
    ∀ (lines : List Str) (st : ParseState),
      (parseLoop lines st).summaryLines =
        st.summaryLines ++ summaryPieces lines st.reading := by
  intro lines
  induction lines with
  | nil => intro st; simp [parseLoop, summaryPieces]
  | cons l rest ih =>
    intro st
    by_cases h1 : lowerStarts (str "tag1:") l = true
    · simp [parseLoop, summaryPieces, h1, ih]
    · by_cases h2 : lowerStarts (str "tag2:") l = true
      · simp [parseLoop, summaryPieces, h1, h2, ih]
      · by_cases h3 : lowerStarts (str "tag3:") l = true
        · simp [parseLoop, summaryPieces, h1, h2, h3, ih]
        · by_cases h4 : lowerStarts (str "institution:") l = true
          · simp [parseLoop, summaryPieces, h1, h2, h3, h4, ih]
          · by_cases h5 : lowerStarts (str "llm_summary:") l = true
            · simp [parseLoop, summaryPieces, h1, h2, h3, h4, h5, ih]
            · by_cases h6 : st.reading = true
              · simp [parseLoop, summaryPieces, h1, h2, h3, h4, h5, h6, ih]
              · simp [parseLoop, summaryPieces, h1, h2, h3, h4, h5, h6, ih]

/-- A loop run over lines carrying no recognized label leaves the state
untouched when collection has not started. -/
theorem parseLoop_no_labels :
    ∀ (lines : List Str) (st : ParseState),
      (∀ l ∈ lines, isFieldLabelLine l = false) → st.reading = false →
      parseLoop lines st = st := by
  intro lines
  induction lines with
  | nil => intro st _ _; rfl
  | cons l rest ih =>
    intro st hlab hread
    have hl := hlab l (List.mem_cons_self _ _)
    simp only [isFieldLabelLine, Bool.or_eq_false_iff] at hl
    obtain ⟨⟨⟨⟨hl1, hl2⟩, hl3⟩, hl4⟩, hl5⟩ := hl
    rw [parseLoop]
    simp only [hl1, hl2, hl3, hl4, hl5, hread, if_false, Bool.false_eq_true]
    exact ih st (fun x hx => hlab x (List.mem_cons_of_mem _ hx)) hread

/-- C9 counterexample: in the response
`"llm_summary: A\ninstitution: MIT\nB"` the `institution:` line follows
the summary label, yet the line `"B"` after it is still appended to the
summary: the parsed `llm_summary` is `"A B"`, not the `"A"` the claim's
"up to the next labeled field" rule prescribes (the institution field
itself is parsed as `"MIT"`). -/
theorem C9_counterexample :
    (parseResponse (str "llm_summary: A\ninstitution: MIT\nB")).2.2.2.2 = str "A B" ∧
    ¬ (parseResponse (str "llm_summary: A\ninstitution: MIT\nB")).2.2.2.2 = str "A" ∧
    (parseResponse (str "llm_summary: A\ninstitution: MIT\nB")).2.2.2.1 = str "MIT" := by
  decide

/-- C9 amended: the parser extracts the five labelled fields from the
stripped, non-empty response lines; `llm_summary` is the space-joined
sequence of the remainders of `llm_summary:`-labelled lines together
with every unlabelled line occurring after the first such label — lines
labelled with another field are parsed as that field and skipped, but
summary collection resumes after them until the end of the response.
Parsing is total, and a response in which no line carries a recognized
label yields empty strings for every field (an empty list for `tag3`). -/
theorem C9_amended_field_extraction (resp : Str) :
    (parseResponse resp).2.2.2.2 =
      (if ¬ summaryPieces (responseLines resp) false = [] then
        pyStrip (List.intercalate (str " ") (summaryPieces (responseLines resp) false))
      else []) ∧
    ((∀ l ∈ responseLines resp, isFieldLabelLine l = false) →
      parseResponse resp = ([], [], [], [], [])) := by
  constructor
  · show (let st := parseLoop (responseLines resp) {}
      let llm := if ¬ st.summaryLines = [] then
          pyStrip (List.intercalate (str " ") st.summaryLines)
        else []
      let tag3List := ((splitComma st.tag3).map pyStrip).filter (fun t => ¬ t = [])
      (st.tag1, st.tag2, tag3List, st.institution, llm)).2.2.2.2 = _
    simp only []
    rw [parseLoop_summaryLines (responseLines resp) {}]
    rfl
  · intro hlab
    rw [parseResponse, parseLoop_no_labels (responseLines resp) {} hlab rfl]
    rfl

/-- C9 amended, witnessed on a label-free (malformed) response: all
five fields come back empty. -/
theorem C9_witness :
    parseResponse (str "hello world") = ([], [], [], [], []) :=
  (C9_amended_field_extraction (str "hello world")).2 (by decide)

/-! ### Window lemmas for the scanner -/

theorem getD_append_lt (l l' : List Char) (n : Nat) (h : n < l.length) :
    (l ++ l').getD n 'x' = l.getD n 'x' :=
  List.getD_append l l' 'x' n h

theorem getD_append_ge (l l' : List Char) (n : Nat) (h : l.length ≤ n) :
    (l ++ l').getD n 'x' = l'.getD (n - l.length) 'x' :=
  List.getD_append_right l l' 'x' n h

theorem lookAheadMark_spec (s : Str) (h : lookAheadMark s = true) :
    s.getD 0 'x' = '\n' ∧ s.getD 1 'x' = '#' ∧ s.getD 2 'x' = '#' ∧
    pyWsChar (s.getD 3 'x') = true := by
  simp only [lookAheadMark, Bool.and_eq_true, decide_eq_true_eq] at h
  exact ⟨h.1.1.1, h.1.1.2, h.1.2, h.2⟩

theorem lookAheadMark_length (s : Str) (h : lookAheadMark s = true) :
    3 < s.length := by
  by_contra hle
  have h3 : s.getD 3 'x' = 'x' := List.getD_eq_default _ _ (by omega)
  have := (lookAheadMark_spec s h).2.2.2
  rw [h3] at this
  exact absurd this (by decide)

theorem lookAheadMark_congr (s t : Str)
    (h : ∀ i, i ≤ 3 → s.getD i 'x' = t.getD i 'x') :
    lookAheadMark s = lookAheadMark t := by
  simp only [lookAheadMark, h 0 (by omega), h 1 (by omega), h 2 (by omega),
    h 3 (by omega)]

theorem lookAheadMark_append_of_true (u v : Str) (h : lookAheadMark u = true) :
    lookAheadMark (u ++ v) = true := by
  have hlen := lookAheadMark_length u h
  rw [lookAheadMark_congr (u ++ v) u (fun i hi => getD_append_lt u v i (by omega))]
  exact h

theorem lookAheadMark_false_of_nl_at (s : Str) (i : Nat) (hi : i = 1 ∨ i = 2)
    (h : s.getD i 'x' = '\n') : lookAheadMark s = false := by
  by_contra htrue
  have ht : lookAheadMark s = true := by
    cases hb : lookAheadMark s
    · exact absurd hb htrue
    · rfl
  obtain ⟨h0, h1, h2, h3⟩ := lookAheadMark_spec s ht
  rcases hi with rfl | rfl
  · rw [h1] at h; exact absurd h (by decide)
  · rw [h2] at h; exact absurd h (by decide)

theorem lookAheadMark_eq_of_head_nl (u v w : Str) (hu : ¬ u = [])
    (hv : v.getD 0 'x' = '\n') (hw : w.getD 0 'x' = '\n') :
    lookAheadMark (u ++ v) = lookAheadMark (u ++ w) := by
  by_cases h4 : 3 < u.length
  · rw [lookAheadMark_congr (u ++ v) u (fun i hi => getD_append_lt u v i (by omega)),
      lookAheadMark_congr (u ++ w) u (fun i hi => getD_append_lt u w i (by omega))]
  · have hpos : 0 < u.length := List.length_pos.mpr hu
    have hlen : u.length = 1 ∨ u.length = 2 ∨ u.length = 3 := by omega
    rcases hlen with hl | hl | hl
    · have e1 : (u ++ v).getD 1 'x' = '\n' := by
        rw [getD_append_ge u v 1 (by omega), hl]
        exact hv
      have e2 : (u ++ w).getD 1 'x' = '\n' := by
        rw [getD_append_ge u w 1 (by omega), hl]
        exact hw
      rw [lookAheadMark_false_of_nl_at _ 1 (Or.inl rfl) e1,
        lookAheadMark_false_of_nl_at _ 1 (Or.inl rfl) e2]
    · have e1 : (u ++ v).getD 2 'x' = '\n' := by
        rw [getD_append_ge u v 2 (by omega), hl]
        exact hv
      have e2 : (u ++ w).getD 2 'x' = '\n' := by
        rw [getD_append_ge u w 2 (by omega), hl]
        exact hw
      rw [lookAheadMark_false_of_nl_at _ 2 (Or.inr rfl) e1,
        lookAheadMark_false_of_nl_at _ 2 (Or.inr rfl) e2]
    · refine lookAheadMark_congr _ _ (fun i hi => ?_)
      by_cases hi3 : i < 3
      · rw [getD_append_lt u v i (by omega), getD_append_lt u w i (by omega)]
      · have hieq : i = 3 := by omega
        subst hieq
        rw [getD_append_ge u v 3 (by omega), getD_append_ge u w 3 (by omega), hl]
        rw [hv, hw]

/-! ### Scanner step lemmas -/

theorem matchHeader_none_of_not_hashes (s : Str)
    (h : ¬ (s.getD 0 'x' = '#' ∧ s.getD 1 'x' = '#')) : matchHeader s = none := by
  rw [matchHeader, if_neg]
  simpa [Bool.and_eq_true, decide_eq_true_eq] using h

theorem matchHeader_none_nl (s : Str) (h : s = [] ∨ s.getD 0 'x' = '\n') :
    matchHeader s = none := by
  apply matchHeader_none_of_not_hashes
  rcases h with rfl | h
  · intro hc
    exact absurd hc.1 (by decide)
  · intro hc
    rw [h] at hc
    exact absurd hc.1 (by decide)

/-- The scanner advances one position when no match starts there. -/
theorem scanAux_step_none (c : Char) (rest : Str) (pos : Nat)
    (h1 : matchHeader (c :: rest) = none)
    (h2 : c = '\n' → matchHeader rest = none) :
    scanAux (c :: rest) 0 pos = scanAux rest 0 (pos + 1) := by
  by_cases hc : c = '\n'
  · simp [scanAux, h1, h2 hc]
  · simp [scanAux, h1, hc]

/-- The scanner emits a section when the newline alternative matches. -/
theorem scanAux_step_match (c : Char) (rest : Str) (pos : Nat) (hl : Nat) (d : Str)
    (hc : c = '\n') (h1 : matchHeader (c :: rest) = none)
    (h2 : matchHeader rest = some (hl, d)) :
    scanAux (c :: rest) 0 pos =
      (d, lstripNl ((c :: rest).take (1 + hl + lazyLen (rest.drop hl))), pos) ::
        scanAux rest (1 + hl + lazyLen (rest.drop hl) - 1) (pos + 1) := by
  subst hc
  simp [scanAux, h1, h2]

/-- Skipping exactly the covered characters resumes the scan after
them. -/
theorem scanAux_skip_cons (c : Char) (rest : Str) (k pos : Nat) :
    scanAux (c :: rest) (k + 1) pos = scanAux rest k (pos + 1) := rfl

theorem scanAux_skip (u : Str) :
    ∀ (v : Str) (pos : Nat), scanAux (u ++ v) u.length pos = scanAux v 0 (pos + u.length) := by
  induction u with
  | nil => intro v pos; simp
  | cons c u ih =>
    intro v pos
    have hlen : (c :: u).length = u.length + 1 := rfl
    rw [List.cons_append, hlen, scanAux_skip_cons, ih]
    congr 1
    omega

/-- The lazy body length over a clean tail followed by a block
boundary or the end of the text. -/
theorem lazyLen_concat (t : Str) :
    ∀ (D : Str), noMarkIn (t ++ [('\n' : Char)]) = true →
      (D = [] ∨ D.getD 0 'x' = '\n') →
      lazyLen (t ++ D) = t.length + lazyLen D := by
  induction t with
  | nil => intro D _ _; simp
  | cons c t ih =>
    intro D hno hD
    have hsplit : lookAheadMark ((c :: t) ++ [('\n' : Char)]) = false ∧
        noMarkIn (t ++ [('\n' : Char)]) = true := by
      rw [List.cons_append, noMarkIn, Bool.and_eq_true, Bool.not_eq_true'] at hno
      exact ⟨by simpa using hno.1, hno.2⟩
    have hlam : lookAheadMark ((c :: t) ++ D) = false := by
      rcases hD with rfl | hD
      · rw [List.append_nil]
        cases hb : lookAheadMark (c :: t)
        · rfl
        · have := lookAheadMark_append_of_true (c :: t) [('\n' : Char)] hb
          rw [this] at hsplit
          exact absurd hsplit.1 (by decide)
      · rw [lookAheadMark_eq_of_head_nl (c :: t) D [('\n' : Char)] (by simp) hD (by decide)]
        exact hsplit.1
    rw [List.cons_append, lazyLen]
    rw [show (c :: (t ++ D)) = (c :: t) ++ D from rfl] at *
    simp only [hlam, if_false, Bool.false_eq_true]
    rw [ih D hsplit.2 hD]
    simp [Nat.add_assoc]
    omega

/-! ### Block-shape lemmas -/

theorem digit_not_ws (c : Char) (h : c.isDigit = true) : pyWsChar c = false := by
  by_contra hw
  have hw' : pyWsChar c = true := by
    cases hb : pyWsChar c
    · exact absurd hb hw
    · rfl
  simp only [pyWsChar, Bool.or_eq_true, decide_eq_true_eq] at hw'
  rcases hw' with ((((rfl | rfl) | rfl) | rfl) | rfl) | rfl <;> exact absurd h (by decide)

theorem dateShape_length (d : Str) (h : dateShape d = true) : d.length = 10 := by
  simp only [dateShape, Bool.and_eq_true, decide_eq_true_eq] at h
  exact h.1.1.1.1.1.1.1.1.1.1

theorem dateShape_head_digit (d : Str) (h : dateShape d = true) :
    (d.getD 0 'x').isDigit = true := by
  simp only [dateShape, Bool.and_eq_true] at h
  exact h.1.1.1.1.1.1.1.1.1.2

theorem dateShape_last_digit (d : Str) (h : dateShape d = true) :
    (d.getD 9 'x').isDigit = true := by
  simp only [dateShape, Bool.and_eq_true] at h
  exact h.2

theorem blksText_cons (b : Blk) (bs : List Blk) :
    blksText (b :: bs) = blkText b ++ blksText bs := by
  simp [blksText]

theorem blksText_split (bs : List Blk) :
    blksText bs = nextPadNl bs ++ blksTextTail bs := by
  cases bs with
  | nil => rfl
  | cons b bs =>
    rw [blksText_cons, blkText, blksTextTail, nextPadNl]
    cases hpad : b.pad <;> simp

theorem blksTextTail_cons (b : Blk) (bs : List Blk) :
    blksTextTail (b :: bs) =
      ('\n' : Char) :: (['#', '#', ' '] ++ b.date ++ b.tail ++ blksText bs) := by
  show str "\n## " ++ b.date ++ b.tail ++ blksText bs = _
  rfl

theorem blksTextTail_shape (bs : List Blk) :
    blksTextTail bs = [] ∨ (blksTextTail bs).getD 0 'x' = '\n' := by
  cases bs with
  | nil => exact Or.inl rfl
  | cons b bs => exact Or.inr (by rw [blksTextTail_cons]; rfl)

theorem blksText_shape (bs : List Blk) :
    blksText bs = [] ∨ (blksText bs).getD 0 'x' = '\n' := by
  cases bs with
  | nil => exact Or.inl rfl
  | cons b bs =>
    refine Or.inr ?_
    rw [blksText_cons, blkText]
    cases hpad : b.pad <;> simp [str]

theorem noDoubleHash_tail (c : Char) (h : Str)
    (hnd : noDoubleHash (c :: h) = true) : noDoubleHash h = true := by
  cases h with
  | nil => rfl
  | cons d h' =>
    rw [noDoubleHash, Bool.and_eq_true] at hnd
    exact hnd.2

theorem noDoubleHash_pair (a b : Char) (r : Str)
    (hnd : noDoubleHash (a :: b :: r) = true) : ¬ (a = '#' ∧ b = '#') := by
  rw [noDoubleHash, Bool.and_eq_true, Bool.not_eq_true'] at hnd
  intro hc
  rcases hnd with ⟨h1, _⟩
  rw [hc.1, hc.2] at h1
  exact absurd h1 (by decide)

theorem matchHeader_none_ctx (h X : Str)
    (hnd : noDoubleHash h = true)
    (hX : X = [] ∨ X.getD 0 'x' = '\n') :
    matchHeader (h ++ X) = none := by
  cases h with
  | nil => simpa using matchHeader_none_nl X hX
  | cons c h' =>
    apply matchHeader_none_of_not_hashes
    rintro ⟨hc0, hc1⟩
    have hc : c = '#' := by
      rw [getD_append_lt (c :: h') X 0 (by simp)] at hc0
      simpa using hc0
    cases h' with
    | nil =>
      rcases hX with rfl | hX
      · simp at hc1
      · rw [getD_append_ge [c] X 1 (by simp)] at hc1
        have he : (1 : Nat) - [c].length = 0 := rfl
        rw [he] at hc1
        rw [hc1] at hX
        exact absurd hX (by decide)
    | cons d h'' =>
      have hd : d = '#' := by
        rw [getD_append_lt (c :: d :: h'') X 1 (by simp)] at hc1
        simpa using hc1
      exact noDoubleHash_pair c d h'' hnd ⟨hc, hd⟩

/-- Traversing a marker-free header advances the scanner without
emitting sections. -/
theorem scanAux_head (h : Str) :
    ∀ (bs : List Blk) (pos : Nat), noDoubleHash h = true →
      scanAux (h ++ blksText bs) 0 pos = scanAux (blksText bs) 0 (pos + h.length) := by
  induction h with
  | nil => intro bs pos _; simp
  | cons c h' ih =>
    intro bs pos hnd
    rw [List.cons_append]
    rw [scanAux_step_none c (h' ++ blksText bs) pos
      (by
        rw [← List.cons_append]
        exact matchHeader_none_ctx (c :: h') _ hnd (blksText_shape bs))
      (fun _ => matchHeader_none_ctx h' _ (noDoubleHash_tail c h' hnd) (blksText_shape bs))]
    rw [ih bs (pos + 1) (noDoubleHash_tail c h' hnd)]
    congr 1
    simp
    omega

/-- Consuming the optional pad newline of the first block. -/
theorem scanAux_padStep (bs : List Blk) (pos : Nat) :
    scanAux (blksText bs) 0 pos = scanAux (blksTextTail bs) 0 (pos + padLen bs) := by
  cases bs with
  | nil => rfl
  | cons b bs =>
    rw [blksText_split]
    cases hpad : b.pad
    · simp [nextPadNl, hpad, padLen]
    · have hsh : (blksTextTail (b :: bs)).getD 0 'x' = '\n' := by
        rw [blksTextTail_cons]; rfl
      simp only [nextPadNl, hpad, if_pos, padLen, List.singleton_append]
      rw [scanAux_step_none '\n' (blksTextTail (b :: bs)) pos
        (matchHeader_none_nl _ (Or.inr (by simp [hsh])))
        (fun _ => matchHeader_none_nl _ (Or.inr hsh))]

/-- The lazy body stops exactly at the next marker newline, after
absorbing the next block's pad newline. -/
theorem lazyLen_blksText (bs : List Blk) :
    lazyLen (blksText bs) = (nextPadNl bs).length := by
  cases bs with
  | nil => rfl
  | cons b bs =>
    rw [blksText_cons, blkText]
    cases hpad : b.pad
    · simp only [if_neg, Bool.false_eq_true, not_false_iff, List.nil_append]
      rw [List.append_assoc, List.append_assoc]
      show lazyLen ('\n' :: '#' :: '#' :: ' ' :: (b.date ++ (b.tail ++ blksText bs))) = _
      rw [lazyLen]
      have hl : lookAheadMark ('\n' :: '#' :: '#' :: ' ' :: (b.date ++ (b.tail ++ blksText bs))) = true := by
        simp [lookAheadMark, List.getD_cons_zero, List.getD_cons_succ, pyWsChar]
      rw [hl]
      simp [nextPadNl, hpad]
    · simp only [if_pos]
      rw [List.append_assoc, List.append_assoc, List.append_assoc]
      show lazyLen ('\n' :: ('\n' :: '#' :: '#' :: ' ' :: (b.date ++ (b.tail ++ blksText bs)))) = _
      rw [lazyLen]
      have hl1 : lookAheadMark ('\n' :: '\n' :: '#' :: '#' :: ' ' :: (b.date ++ (b.tail ++ blksText bs))) = false := by
        simp [lookAheadMark, List.getD_cons_zero, List.getD_cons_succ]
      rw [hl1]
      rw [lazyLen]
      have hl2 : lookAheadMark ('\n' :: '#' :: '#' :: ' ' :: (b.date ++ (b.tail ++ blksText bs))) = true := by
        simp [lookAheadMark, List.getD_cons_zero, List.getD_cons_succ, pyWsChar]
      rw [hl2]
      simp [nextPadNl, hpad]

/-- The header match at a block start: `##`, one space of the
whitespace run, then the ten-character date. -/
theorem matchHeader_block (d t X : Str) (hd : dateShape d = true) :
    matchHeader (['#', '#', ' '] ++ d ++ t ++ X) = some (13, d) := by
  have hlen := dateShape_length d hd
  obtain ⟨d0, drest, rfl⟩ : ∃ d0 drest, d = d0 :: drest := by
    cases d with
    | nil => simp at hlen
    | cons a l => exact ⟨a, l, rfl⟩
  have hdig : d0.isDigit = true := by
    have := dateShape_head_digit _ hd
    simpa using this
  have hws : pyWsChar d0 = false := digit_not_ws d0 hdig
  show matchHeader ('#' :: '#' :: ' ' :: (((d0 :: drest) ++ t) ++ X)) = _
  rw [matchHeader, if_pos (by simp [List.getD_cons_zero, List.getD_cons_succ])]
  simp only [List.drop_succ_cons, List.drop_zero, List.takeWhile_cons]
  have hsp : pyWsChar ' ' = true := by decide
  rw [hsp]
  simp only [if_pos]
  have htw : List.takeWhile pyWsChar (((d0 :: drest) ++ t) ++ X) = [] := by
    simp [List.takeWhile_cons, hws]
  rw [htw]
  simp only [List.length_cons, List.length_nil]
  have hdrop : List.drop 1 (' ' :: (((d0 :: drest) ++ t) ++ X)) = ((d0 :: drest) ++ t) ++ X := rfl
  rw [show (0 + 1 : Nat) = 1 from rfl, hdrop]
  rw [List.append_assoc]
  have htake : List.take 10 ((d0 :: drest) ++ (t ++ X)) = d0 :: drest := by
    rw [← hlen]
    exact List.take_left _ _
  rw [htake, if_pos hd]

/-- The scanner, sitting on the marker newline of the first block of a
well-formed block sequence, emits exactly the expected sections. -/
theorem scanAux_markStart :
    ∀ (bs : List Blk) (pos : Nat), BlocksOk bs →
      scanAux (blksTextTail bs) 0 pos = expectedAt bs pos := by
  intro bs
  induction bs with
  | nil => intro pos _; rfl
  | cons b bs ih =>
    intro pos hok
    obtain ⟨hdate, htail⟩ := hok b (List.mem_cons_self _ _)
    have hokrest : BlocksOk bs := fun x hx => hok x (List.mem_cons_of_mem _ hx)
    rw [blksTextTail_cons]
    have hm1 : matchHeader ('\n' :: (['#', '#', ' '] ++ b.date ++ b.tail ++ blksText bs)) = none :=
      matchHeader_none_nl _ (Or.inr rfl)
    have hm2 : matchHeader (['#', '#', ' '] ++ b.date ++ b.tail ++ blksText bs) = some (13, b.date) :=
      matchHeader_block _ _ _ hdate
    have hlen13 : (['#', '#', ' '] ++ b.date).length = 13 := by
      simp [dateShape_length _ hdate]
    have hdropR : (['#', '#', ' '] ++ b.date ++ b.tail ++ blksText bs).drop 13 =
        b.tail ++ blksText bs := by
      show ((((['#', '#', ' '] ++ b.date) ++ b.tail) ++ blksText bs)).drop 13 = _
      rw [List.append_assoc (['#', '#', ' '] ++ b.date)]
      rw [← hlen13, List.drop_left]
    have hlazy : lazyLen ((['#', '#', ' '] ++ b.date ++ b.tail ++ blksText bs).drop 13) =
        b.tail.length + (nextPadNl bs).length := by
      rw [hdropR, lazyLen_concat b.tail (blksText bs) htail (blksText_shape bs),
        lazyLen_blksText]
    rw [scanAux_step_match '\n' _ pos 13 b.date rfl hm1 hm2]
    have hRsplit : ['#', '#', ' '] ++ b.date ++ b.tail ++ blksText bs =
        (['#', '#', ' '] ++ b.date ++ b.tail ++ nextPadNl bs) ++ blksTextTail bs := by
      rw [blksText_split bs]
      simp [List.append_assoc]
    have hCovLen : (['#', '#', ' '] ++ b.date ++ b.tail ++ nextPadNl bs).length =
        13 + b.tail.length + (nextPadNl bs).length := by
      simp [List.length_append, dateShape_length _ hdate]
      omega
    have htake : (('\n' :: (['#', '#', ' '] ++ b.date ++ b.tail ++ blksText bs)).take
        (1 + 13 + lazyLen ((['#', '#', ' '] ++ b.date ++ b.tail ++ blksText bs).drop 13))) =
        '\n' :: (['#', '#', ' '] ++ b.date ++ b.tail ++ nextPadNl bs) := by
      rw [hlazy, List.take_cons (by omega)]
      congr 1
      rw [hRsplit]
      rw [show (1 + 13 + (b.tail.length + (nextPadNl bs).length)) - 1 =
          (13 + b.tail.length + (nextPadNl bs).length) from by omega, ← hCovLen,
        List.take_left]
    have hlstrip : lstripNl ('\n' :: (['#', '#', ' '] ++ b.date ++ b.tail ++ nextPadNl bs)) =
        ['#', '#', ' '] ++ b.date ++ b.tail ++ nextPadNl bs := by
      simp [lstripNl, List.dropWhile_cons]
    have hskip : scanAux (['#', '#', ' '] ++ b.date ++ b.tail ++ blksText bs)
        (1 + 13 + lazyLen ((['#', '#', ' '] ++ b.date ++ b.tail ++ blksText bs).drop 13) - 1)
        (pos + 1) =
        expectedAt bs (pos + 4 + b.date.length + b.tail.length + (nextPadNl bs).length) := by
      rw [hlazy, hRsplit]
      rw [show (1 + 13 + (b.tail.length + (nextPadNl bs).length)) - 1 =
          (13 + b.tail.length + (nextPadNl bs).length) from by omega, ← hCovLen,
        scanAux_skip, ih _ hokrest]
      congr 1
      rw [hCovLen, dateShape_length _ hdate]
      omega
    rw [expectedAt, htake, hlstrip, hskip]
    rfl
/-! ### Right-strip master lemmas -/

theorem rstripNl_append (A B : Str) :
    rstripNl (A ++ B) = if rstripNl B = [] then rstripNl A else A ++ rstripNl B := by
  have hkey : (A ++ B).reverse.dropWhile (fun c => c = '\n') =
      if (B.reverse.dropWhile (fun c => c = '\n')).isEmpty = true
      then A.reverse.dropWhile (fun c => c = '\n')
      else B.reverse.dropWhile (fun c => c = '\n') ++ A.reverse := by
    rw [List.reverse_append, List.dropWhile_append]
  by_cases hB : B.reverse.dropWhile (fun c => c = '\n') = []
  · have h1 : rstripNl B = [] := by simp [rstripNl, hB]
    rw [rstripNl, hkey, if_pos (by simp [hB]), if_pos h1]
    rfl
  · have h1 : ¬ rstripNl B = [] := by simp [rstripNl, hB]
    rw [rstripNl, hkey, if_neg (by simpa using hB), if_neg h1]
    rw [List.reverse_append, List.reverse_reverse]
    rfl

theorem pyRstrip_append (A B : Str) :
    pyRstrip (A ++ B) = if pyRstrip B = [] then pyRstrip A else A ++ pyRstrip B := by
  have hkey : (A ++ B).reverse.dropWhile pyWsChar =
      if (B.reverse.dropWhile pyWsChar).isEmpty = true
      then A.reverse.dropWhile pyWsChar
      else B.reverse.dropWhile pyWsChar ++ A.reverse := by
    rw [List.reverse_append, List.dropWhile_append]
  by_cases hB : B.reverse.dropWhile pyWsChar = []
  · have h1 : pyRstrip B = [] := by simp [pyRstrip, hB]
    rw [pyRstrip, hkey, if_pos (by simp [hB]), if_pos h1]
    rfl
  · have h1 : ¬ pyRstrip B = [] := by simp [pyRstrip, hB]
    rw [pyRstrip, hkey, if_neg (by simpa using hB), if_neg h1]
    rw [List.reverse_append, List.reverse_reverse]
    rfl

theorem rstripNl_singleton (c : Char) (hc : ¬ c = '\n') : rstripNl [c] = [c] := by
  simp [rstripNl, List.dropWhile, hc]

theorem pyRstrip_singleton (c : Char) (hc : pyWsChar c = false) : pyRstrip [c] = [c] := by
  simp [pyRstrip, List.dropWhile, hc]

/-- A text ending in a non-newline is unchanged by `rstrip('\n')`. -/
theorem rstripNl_no_strip (A : Str) (c : Char) (hc : ¬ c = '\n') :
    rstripNl (A ++ [c]) = A ++ [c] := by
  rw [rstripNl_append, rstripNl_singleton c hc]
  simp

/-- A text ending in a non-whitespace character is unchanged by
`rstrip()`. -/
theorem pyRstrip_no_strip (A : Str) (c : Char) (hc : pyWsChar c = false) :
    pyRstrip (A ++ [c]) = A ++ [c] := by
  rw [pyRstrip_append, pyRstrip_singleton c hc]
  simp

theorem rstripNl_cons (c : Char) (l : Str) (hc : ¬ c = '\n') :
    ∃ r, rstripNl (c :: l) = c :: r := by
  rw [show (c :: l) = [c] ++ l from rfl, rstripNl_append, rstripNl_singleton c hc]
  by_cases h : rstripNl l = []
  · exact ⟨[], by simp [h]⟩
  · exact ⟨rstripNl l, by simp [h]⟩

/-- `rstrip('\n')` never leaves a trailing newline. -/
theorem rstripNl_getLast (t : Str) :
    rstripNl t = [] ∨ ¬ (rstripNl t).getLast? = some '\n' := by
  by_cases h : rstripNl t = []
  · exact Or.inl h
  · refine Or.inr ?_
    intro hlast
    have hmem : '\n' ∈ (t.reverse.dropWhile (fun c => c = '\n')).head? := by
      rw [rstripNl] at hlast
      rw [List.getLast?_reverse] at hlast
      simp [hlast]
    cases hh : (t.reverse.dropWhile (fun c => c = '\n')).head? with
    | none => rw [hh] at hmem; simp at hmem
    | some a =>
      rw [hh] at hmem
      simp at hmem
      subst hmem
      have := List.head?_dropWhile_not (fun c => c = '\n') t.reverse
      rw [hh] at this
      simp at this

/-- `rstrip()` never leaves a trailing whitespace character. -/
theorem pyRstrip_getLast (t : Str) :
    pyRstrip t = [] ∨
      ∃ c, (pyRstrip t).getLast? = some c ∧ pyWsChar c = false := by
  by_cases h : pyRstrip t = []
  · exact Or.inl h
  · refine Or.inr ?_
    cases hh : (t.reverse.dropWhile pyWsChar).head? with
    | none =>
      exfalso
      apply h
      rw [pyRstrip]
      rw [List.head?_eq_none_iff] at hh
      simp [hh]
    | some a =>
      refine ⟨a, ?_, ?_⟩
      · rw [pyRstrip, List.getLast?_reverse, hh]
      · have := List.head?_dropWhile_not pyWsChar t.reverse
        rw [hh] at this
        simpa using this

/-- The characters removed by `rstrip('\n')` are newlines. -/
theorem rstripNl_decomp (t : Str) :
    ∃ w, t = rstripNl t ++ w ∧ ∀ c ∈ w, c = '\n' := by
  refine ⟨(t.reverse.takeWhile (fun c => c = '\n')).reverse, ?_, ?_⟩
  · rw [rstripNl, ← List.reverse_append, List.takeWhile_append_dropWhile, List.reverse_reverse]
  · intro c hc
    rw [List.mem_reverse] at hc
    simpa using List.mem_takeWhile_imp hc

/-- The characters removed by `rstrip()` are whitespace. -/
theorem pyRstrip_decomp (t : Str) :
    ∃ w, t = pyRstrip t ++ w ∧ ∀ c ∈ w, pyWsChar c = true := by
  refine ⟨(t.reverse.takeWhile pyWsChar).reverse, ?_, ?_⟩
  · rw [pyRstrip, ← List.reverse_append, List.takeWhile_append_dropWhile, List.reverse_reverse]
  · intro c hc
    rw [List.mem_reverse] at hc
    exact List.mem_takeWhile_imp hc

/-- `strip()` of a text beginning with a non-whitespace character only
strips on the right. -/
theorem pyStrip_eq_pyRstrip (X : Str) (h : pyWsChar (X.getD 0 'x') = false) :
    pyStrip X = pyRstrip X := by
  cases X with
  | nil => rfl
  | cons c l =>
    have hc : pyWsChar c = false := by simpa using h
    rw [pyStrip, pyLstrip, List.dropWhile_cons, hc]
    simp

/-! ### Cleanliness preservation -/

theorem lookAheadMark_false_of_ws_at (s : Str) (i : Nat) (hi : i = 1 ∨ i = 2)
    (h : pyWsChar (s.getD i 'x') = true) : lookAheadMark s = false := by
  by_contra htrue
  have ht : lookAheadMark s = true := by
    cases hb : lookAheadMark s
    · exact absurd hb htrue
    · rfl
  obtain ⟨h0, h1, h2, _⟩ := lookAheadMark_spec s ht
  rcases hi with rfl | rfl
  · rw [h1] at h; exact absurd h (by decide)
  · rw [h2] at h; exact absurd h (by decide)

theorem lookAheadMark_eq_of_head_ws (u v w : Str) (hu : ¬ u = [])
    (hv : pyWsChar (v.getD 0 'x') = true) (hw : pyWsChar (w.getD 0 'x') = true) :
    lookAheadMark (u ++ v) = lookAheadMark (u ++ w) := by
  by_cases h4 : 3 < u.length
  · rw [lookAheadMark_congr (u ++ v) u (fun i hi => getD_append_lt u v i (by omega)),
      lookAheadMark_congr (u ++ w) u (fun i hi => getD_append_lt u w i (by omega))]
  · have hpos : 0 < u.length := List.length_pos.mpr hu
    have hlen : u.length = 1 ∨ u.length = 2 ∨ u.length = 3 := by omega
    rcases hlen with hl | hl | hl
    · have e1 : pyWsChar ((u ++ v).getD 1 'x') = true := by
        rw [getD_append_ge u v 1 (by omega), hl]
        exact hv
      have e2 : pyWsChar ((u ++ w).getD 1 'x') = true := by
        rw [getD_append_ge u w 1 (by omega), hl]
        exact hw
      rw [lookAheadMark_false_of_ws_at _ 1 (Or.inl rfl) e1,
        lookAheadMark_false_of_ws_at _ 1 (Or.inl rfl) e2]
    · have e1 : pyWsChar ((u ++ v).getD 2 'x') = true := by
        rw [getD_append_ge u v 2 (by omega), hl]
        exact hv
      have e2 : pyWsChar ((u ++ w).getD 2 'x') = true := by
        rw [getD_append_ge u w 2 (by omega), hl]
        exact hw
      rw [lookAheadMark_false_of_ws_at _ 2 (Or.inr rfl) e1,
        lookAheadMark_false_of_ws_at _ 2 (Or.inr rfl) e2]
    · simp only [lookAheadMark]
      rw [getD_append_lt u v 0 (by omega), getD_append_lt u w 0 (by omega),
        getD_append_lt u v 1 (by omega), getD_append_lt u w 1 (by omega),
        getD_append_lt u v 2 (by omega), getD_append_lt u w 2 (by omega),
        getD_append_ge u v 3 (by omega), getD_append_ge u w 3 (by omega), hl]
      rw [hv, hw]

theorem noMarkIn_strip_ws :
    ∀ (u w : Str), (∀ c ∈ w, pyWsChar c = true) →
      noMarkIn (u ++ (w ++ [('\n' : Char)])) = true →
      noMarkIn (u ++ [('\n' : Char)]) = true := by
  intro u
  induction u with
  | nil => intro w _ _; decide
  | cons c u' ih =>
    intro w hw h
    have h' : noMarkIn (c :: (u' ++ (w ++ [('\n' : Char)]))) = true := by
      rw [← List.cons_append]
      exact h
    rw [noMarkIn, Bool.and_eq_true, Bool.not_eq_true'] at h'
    have hwshead : pyWsChar ((w ++ [('\n' : Char)]).getD 0 'x') = true := by
      cases w with
      | nil => decide
      | cons c0 w' =>
        have := hw c0 (List.mem_cons_self _ _)
        simpa using this
    have hlook : lookAheadMark ((c :: u') ++ [('\n' : Char)]) = false := by
      rw [lookAheadMark_eq_of_head_ws (c :: u') [('\n' : Char)] (w ++ [('\n' : Char)])
        (by simp) (by decide) hwshead]
      exact h'.1
    rw [List.cons_append, noMarkIn, Bool.and_eq_true, Bool.not_eq_true']
    refine ⟨?_, ih w hw h'.2⟩
    rw [← List.cons_append]
    exact hlook

theorem noMarkIn_extend_nl :
    ∀ (u : Str), noMarkIn (u ++ [('\n' : Char)]) = true →
      noMarkIn (u ++ [('\n' : Char), ('\n' : Char)]) = true := by
  intro u
  induction u with
  | nil => intro _; decide
  | cons c u' ih =>
    intro h
    have h' : noMarkIn (c :: (u' ++ [('\n' : Char)])) = true := by
      rw [← List.cons_append]
      exact h
    rw [noMarkIn, Bool.and_eq_true, Bool.not_eq_true'] at h'
    have hlook : lookAheadMark ((c :: u') ++ [('\n' : Char), ('\n' : Char)]) = false := by
      rw [lookAheadMark_eq_of_head_ws (c :: u') [('\n' : Char), ('\n' : Char)] [('\n' : Char)]
        (by simp) (by decide) (by decide)]
      rw [← List.cons_append] at h'
      exact h'.1
    rw [List.cons_append, noMarkIn, Bool.and_eq_true, Bool.not_eq_true']
    refine ⟨?_, ih h'.2⟩
    rw [← List.cons_append]
    exact hlook

theorem tailOk_rstripNl (t : Str) (h : tailOk t = true) : tailOk (rstripNl t) = true := by
  obtain ⟨w, hdecomp, hw⟩ := rstripNl_decomp t
  refine noMarkIn_strip_ws (rstripNl t) w
    (fun c hc => by rw [hw c hc]; decide) ?_
  rw [← List.append_assoc, ← hdecomp]
  exact h

theorem tailOk_pyRstrip (t : Str) (h : tailOk t = true) : tailOk (pyRstrip t) = true := by
  obtain ⟨w, hdecomp, hw⟩ := pyRstrip_decomp t
  refine noMarkIn_strip_ws (pyRstrip t) w hw ?_
  rw [← List.append_assoc, ← hdecomp]
  exact h

theorem tailOk_pyRstrip_snoc (t : Str) (h : tailOk t = true) :
    tailOk (pyRstrip t ++ [('\n' : Char)]) = true := by
  show noMarkIn ((pyRstrip t ++ [('\n' : Char)]) ++ [('\n' : Char)]) = true
  rw [List.append_assoc]
  exact noMarkIn_extend_nl (pyRstrip t) (tailOk_pyRstrip t h)

theorem noDoubleHash_append_left :
    ∀ (u v : Str), noDoubleHash (u ++ v) = true → noDoubleHash u = true := by
  intro u
  induction u with
  | nil => intro v _; rfl
  | cons c u' ih =>
    intro v h
    cases u' with
    | nil => rfl
    | cons d r =>
      rw [noDoubleHash, Bool.and_eq_true]
      have h' : noDoubleHash (c :: d :: (r ++ v)) = true := by
        rw [← List.cons_append, ← List.cons_append]
        exact h
      rw [noDoubleHash, Bool.and_eq_true] at h'
      exact ⟨h'.1, ih v (by rw [List.cons_append]; exact h'.2)⟩

/-! ### The scan of a well-formed document -/

/-- Scanning a well-formed document yields one section per block, in
order. -/
theorem scanSections_docOf (head : Str) (bs : List Blk)
    (hh : noDoubleHash head = true) (hb : BlocksOk bs) :
    scanSections (head ++ blksText bs) = expectedAt bs (head.length + padLen bs) := by
  rw [scanSections, scanAux_head head bs 0 hh, scanAux_padStep, scanAux_markStart bs _ hb]
  congr 1
  omega

theorem nextPadNl_length (bs : List Blk) : (nextPadNl bs).length = padLen bs := by
  cases bs with
  | nil => rfl
  | cons b bs => cases hp : b.pad <;> simp [nextPadNl, padLen, hp]

theorem blkText_length (b : Blk) :
    (blkText b).length = (if b.pad then 1 else 0) + 4 + b.date.length + b.tail.length := by
  cases hp : b.pad <;> simp [blkText, hp, str] <;> omega

theorem blksText_append (x y : List Blk) :
    blksText (x ++ y) = blksText x ++ blksText y := by
  simp [blksText]

theorem expectedAt_dates (bs : List Blk) :
    ∀ pos, (expectedAt bs pos).map (fun s => s.1) = bs.map (fun b => b.date) := by
  induction bs with
  | nil => intro pos; rfl
  | cons b bs ih => intro pos; simp [expectedAt, ih]

/-- No existing section carries the target date, so the replace branch
finds nothing. -/
theorem expectedAt_find_date_none (dateStr : Str) (bs : List Blk)
    (habs : ∀ b ∈ bs, ¬ b.date = dateStr) :
    ∀ pos, (expectedAt bs pos).find? (fun s => s.1 == dateStr) = none := by
  induction bs with
  | nil => intro pos; rfl
  | cons b bs ih =>
    intro pos
    rw [expectedAt, List.find?_cons]
    have hne : (b.date == dateStr) = false := by
      rw [beq_eq_false_iff_ne]
      exact habs b (List.mem_cons_self _ _)
    rw [hne]
    exact ih (fun x hx => habs x (List.mem_cons_of_mem _ hx)) _

/-- The insert branch finds the first strictly later section, and its
stored start index is the marker-newline position of that block. -/
theorem expectedAt_find_insert (dateStr : Str) :
    ∀ (bs : List Blk) (head : Str),
      (bs.dropWhile (fun b => !strLt dateStr b.date) = [] →
        (expectedAt bs (head.length + padLen bs)).find? (fun s => strLt dateStr s.1) = none) ∧
      (∀ bj post, bs.dropWhile (fun b => !strLt dateStr b.date) = bj :: post →
        ∃ c, (expectedAt bs (head.length + padLen bs)).find? (fun s => strLt dateStr s.1) =
          some (bj.date, c,
            (head ++ blksText (bs.takeWhile (fun b => !strLt dateStr b.date))).length +
              (if bj.pad then 1 else 0))) := by
  intro bs
  induction bs with
  | nil => intro head; exact ⟨fun _ => rfl, fun bj post h => by simp at h⟩
  | cons b bs ih =>
    intro head
    by_cases hlt : strLt dateStr b.date = true
    · constructor
      · intro h
        rw [List.dropWhile_cons, if_neg (by simp [hlt])] at h
        simp at h
      · intro bj post h
        rw [List.dropWhile_cons, if_neg (by simp [hlt])] at h
        have hb : b = bj := (List.cons.injEq _ _ _ _ ▸ h).1
        subst hb
        refine ⟨str "## " ++ b.date ++ b.tail ++ nextPadNl bs, ?_⟩
        rw [expectedAt]
        simp only [List.find?_cons, hlt]
        rw [List.takeWhile_cons, if_neg (by simp [hlt])]
        simp only [blksText, List.map_nil, List.flatten_nil, List.append_nil, padLen]
    · have hlt' : (!strLt dateStr b.date) = true := by simp [hlt]
      have harith : head.length + padLen (b :: bs) + 4 + b.date.length + b.tail.length +
          (nextPadNl bs).length = (head ++ blkText b).length + padLen bs := by
        rw [List.length_append, blkText_length, nextPadNl_length, padLen]
        cases hp : b.pad <;> simp [hp] <;> omega
      constructor
      · intro h
        rw [List.dropWhile_cons, if_pos hlt'] at h
        have hltf : strLt dateStr b.date = false := by
          simpa using hlt
        rw [expectedAt]
        simp only [List.find?_cons, hltf]
        rw [harith]
        exact (ih (head ++ blkText b)).1 h
      · intro bj post h
        rw [List.dropWhile_cons, if_pos hlt'] at h
        obtain ⟨c, hc⟩ := (ih (head ++ blkText b)).2 bj post h
        refine ⟨c, ?_⟩
        have hltf : strLt dateStr b.date = false := by
          simpa using hlt
        rw [expectedAt]
        simp only [List.find?_cons, hltf]
        rw [harith, hc]
        have hlen : (head ++ blkText b ++
            blksText (bs.takeWhile (fun b => !strLt dateStr b.date))).length =
            (head ++ blksText ((b :: bs).takeWhile (fun b => !strLt dateStr b.date))).length := by
          rw [List.takeWhile_cons, if_pos hlt', blksText_cons]
          simp [List.length_append]
        rw [hlen]

/-! ### Order lemmas for the lexicographic comparison -/

theorem strLt_irrefl : ∀ (a : Str), strLt a a = false := by
  intro a
  induction a with
  | nil => rfl
  | cons c a ih => simp [strLt, ih]

theorem strLt_trans : ∀ (a b c : Str), strLt a b = true → strLt b c = true → strLt a c = true := by
  intro a
  induction a with
  | nil =>
    intro b c hab hbc
    cases c with
    | nil =>
      cases b with
      | nil => exact hab
      | cons bb bs => simp [strLt] at hbc
    | cons cc cs => rfl
  | cons aa as ih =>
    intro b c hab hbc
    cases b with
    | nil => simp [strLt] at hab
    | cons bb bs =>
      cases c with
      | nil => simp [strLt] at hbc
      | cons cc cs =>
        rw [strLt] at hab hbc ⊢
        by_cases h1 : aa < bb
        · by_cases h2 : bb < cc
          · rw [if_pos (lt_trans h1 h2)]
          · by_cases h3 : cc < bb
            · rw [if_neg h2, if_pos h3] at hbc
              simp at hbc
            · have hbceq : bb = cc := le_antisymm (not_lt.mp h3) (not_lt.mp h2)
              subst hbceq
              rw [if_pos h1]
        · by_cases h1' : bb < aa
          · rw [if_neg h1, if_pos h1'] at hab
            simp at hab
          · have heq : aa = bb := le_antisymm (not_lt.mp h1') (not_lt.mp h1)
            subst heq
            rw [if_neg h1, if_neg h1] at hab
            by_cases h2 : aa < cc
            · rw [if_pos h2]
            · by_cases h3 : cc < aa
              · rw [if_neg h2, if_pos h3] at hbc
                simp at hbc
              · have heq2 : aa = cc := le_antisymm (not_lt.mp h3) (not_lt.mp h2)
                subst heq2
                rw [if_neg h2, if_neg h2] at hbc
                rw [if_neg h2, if_neg h2]
                exact ih bs cs hab hbc

theorem strLt_total : ∀ (a b : Str), a = b ∨ strLt a b = true ∨ strLt b a = true := by
  intro a
  induction a with
  | nil =>
    intro b
    cases b with
    | nil => exact Or.inl rfl
    | cons bb bs => exact Or.inr (Or.inl rfl)
  | cons aa as ih =>
    intro b
    cases b with
    | nil => exact Or.inr (Or.inr rfl)
    | cons bb bs =>
      by_cases h1 : aa < bb
      · exact Or.inr (Or.inl (by rw [strLt, if_pos h1]))
      · by_cases h2 : bb < aa
        · exact Or.inr (Or.inr (by rw [strLt, if_pos h2]))
        · have heq : aa = bb := le_antisymm (not_lt.mp h2) (not_lt.mp h1)
          subst heq
          rcases ih bs with rfl | h | h
          · exact Or.inl rfl
          · exact Or.inr (Or.inl (by rw [strLt, if_neg h1, if_neg h1]; exact h))
          · exact Or.inr (Or.inr (by rw [strLt, if_neg h1, if_neg h1]; exact h))

theorem adjTailLast_concat (f : Str → Str) :
    ∀ (Z : List Blk) (b : Blk),
      adjTailLast f (Z ++ [b]) = Z ++ [{ b with tail := f b.tail }] := by
  intro Z
  induction Z with
  | nil => intro b; rfl
  | cons z Z' ih =>
    intro b
    obtain ⟨y, ys, hZ⟩ : ∃ y ys, Z' ++ [b] = y :: ys := by
      cases Z' with
      | nil => exact ⟨b, [], rfl⟩
      | cons a l => exact ⟨a, l ++ [b], rfl⟩
    show adjTailLast f (z :: (Z' ++ [b])) = z :: (Z' ++ [{ b with tail := f b.tail }])
    rw [hZ]
    show z :: adjTailLast f (y :: ys) = _
    rw [← hZ, ih b]

/-- Tail adjustment does not change the block dates. -/
theorem adjTailLast_dates (f : Str → Str) (bs : List Blk) :
    (adjTailLast f bs).map (fun b => b.date) = bs.map (fun b => b.date) := by
  rcases List.eq_nil_or_concat bs with rfl | ⟨Z, b, rfl⟩
  · rfl
  · rw [List.concat_eq_append, adjTailLast_concat]
    simp

/-- Tail adjustment preserves well-formedness when `f` preserves clean
tails. -/
theorem BlocksOk_adjTailLast (f : Str → Str) (bs : List Blk)
    (hok : BlocksOk bs) (hf : ∀ t, tailOk t = true → tailOk (f t) = true) :
    BlocksOk (adjTailLast f bs) := by
  rcases List.eq_nil_or_concat bs with rfl | ⟨Z, b, rfl⟩
  · exact hok
  · rw [List.concat_eq_append] at hok ⊢
    rw [adjTailLast_concat]
    intro x hx
    rcases List.mem_append.mp hx with hx | hx
    · exact hok x (List.mem_append.mpr (Or.inl hx))
    · have hb := hok b (List.mem_append.mpr (Or.inr (List.mem_singleton.mpr rfl)))
      rw [List.mem_singleton] at hx
      subst hx
      exact ⟨hb.1, hf b.tail hb.2⟩

/-- The date of a shaped date token ends in a digit, so a block header
protects it from right-stripping. -/
theorem dateShape_concat (d : Str) (h : dateShape d = true) :
    ∃ d2 c, d = d2 ++ [c] ∧ pyWsChar c = false ∧ ¬ c = '\n' := by
  have hlen := dateShape_length d h
  rcases List.eq_nil_or_concat d with rfl | ⟨d2, c, rfl⟩
  · simp at hlen
  · rw [List.concat_eq_append] at hlen ⊢
    have hl2 : d2.length = 9 := by
      simp at hlen
      omega
    have hc : c.isDigit = true := by
      have := dateShape_last_digit _ h
      rw [List.concat_eq_append, getD_append_ge d2 [c] 9 (by omega), hl2] at this
      simpa using this
    have hws : pyWsChar c = false := digit_not_ws c hc
    refine ⟨d2, c, rfl, hws, ?_⟩
    intro hnl
    subst hnl
    exact absurd hws (by decide)

/-- A right-strip distributes past a protected prefix ending in a
character it never strips. -/
theorem strip_append_protected (strip : Str → Str)
    (hmaster : ∀ A B, strip (A ++ B) = if strip B = [] then strip A else A ++ strip B)
    (A B : Str) (c : Char) (hc : strip [c] = [c]) :
    strip ((A ++ [c]) ++ B) = (A ++ [c]) ++ strip B := by
  rw [hmaster]
  by_cases h : strip B = []
  · rw [if_pos h, hmaster, hc, if_neg (by simp)]
    simp [h]
  · rw [if_neg h]

theorem blkText_tail_append (b : Blk) (x : Str) :
    blkText b ++ x = blkText { b with tail := b.tail ++ x } := by
  simp [blkText]

theorem blksText_singleton (b : Blk) : blksText [b] = blkText b := by
  simp [blksText]

/-- Right-stripping whitespace reaches at most the tail of the last
block. -/
theorem pyRstrip_lastBlock (U : Str) (b : Blk) (hd : dateShape b.date = true) :
    pyRstrip (U ++ blkText b) = U ++ blkText { b with tail := pyRstrip b.tail } := by
  obtain ⟨d2, c, hdec, hws, _⟩ := dateShape_concat b.date hd
  have hP : U ++ blkText b =
      (((U ++ (if b.pad then [('\n' : Char)] else []) ++ str "\n## " ++ d2) ++ [c]) ++ b.tail) := by
    rw [blkText, hdec]
    simp [List.append_assoc]
  rw [hP, strip_append_protected pyRstrip pyRstrip_append _ _ c (pyRstrip_singleton c hws)]
  rw [blkText, hdec]
  simp [List.append_assoc]

/-- Newline-stripping reaches at most the tail of the last block. -/
theorem rstripNl_lastBlock (U : Str) (b : Blk) (hd : dateShape b.date = true) :
    rstripNl (U ++ blkText b) = U ++ blkText { b with tail := rstripNl b.tail } := by
  obtain ⟨d2, c, hdec, _, hnl⟩ := dateShape_concat b.date hd
  have hP : U ++ blkText b =
      (((U ++ (if b.pad then [('\n' : Char)] else []) ++ str "\n## " ++ d2) ++ [c]) ++ b.tail) := by
    rw [blkText, hdec]
    simp [List.append_assoc]
  rw [hP, strip_append_protected rstripNl rstripNl_append _ _ c (rstripNl_singleton c hnl)]
  rw [blkText, hdec]
  simp [List.append_assoc]

/-- Whitespace right-strip of a non-empty serialized block list,
re-serialized. -/
theorem pyRstrip_blksText (bs : List Blk) (hne : ¬ bs = [])
    (hd : ∀ b ∈ bs, dateShape b.date = true) (U : Str) :
    pyRstrip (U ++ blksText bs) = U ++ blksText (adjTailLast pyRstrip bs) := by
  rcases List.eq_nil_or_concat bs with rfl | ⟨Z, b, rfl⟩
  · exact absurd rfl hne
  · rw [List.concat_eq_append] at hd ⊢
    rw [blksText_append, blksText_singleton, adjTailLast_concat, ← List.append_assoc,
      pyRstrip_lastBlock (U ++ blksText Z) b
        (hd b (List.mem_append.mpr (Or.inr (List.mem_singleton.mpr rfl)))),
      blksText_append, blksText_singleton]
    simp [List.append_assoc]

/-- Newline right-strip of a non-empty serialized block list. -/
theorem rstripNl_blksText (bs : List Blk) (hne : ¬ bs = [])
    (hd : ∀ b ∈ bs, dateShape b.date = true) (U : Str) :
    rstripNl (U ++ blksText bs) = U ++ blksText (adjTailLast rstripNl bs) := by
  rcases List.eq_nil_or_concat bs with rfl | ⟨Z, b, rfl⟩
  · exact absurd rfl hne
  · rw [List.concat_eq_append] at hd ⊢
    rw [blksText_append, blksText_singleton, adjTailLast_concat, ← List.append_assoc,
      rstripNl_lastBlock (U ++ blksText Z) b
        (hd b (List.mem_append.mpr (Or.inr (List.mem_singleton.mpr rfl)))),
      blksText_append, blksText_singleton]
    simp [List.append_assoc]

theorem rstripNl_snoc_nl (X : Str) : rstripNl (X ++ [('\n' : Char)]) = rstripNl X := by
  rw [rstripNl_append]
  simp [rstripNl, List.dropWhile]

theorem pyRstrip_snoc_nl (X : Str) : pyRstrip (X ++ [('\n' : Char)]) = pyRstrip X := by
  rw [pyRstrip_append]
  have : pyRstrip [('\n' : Char)] = [] := by decide
  simp [this]

theorem pyRstrip_cons (c : Char) (l : Str) (hc : pyWsChar c = false) :
    ∃ r, pyRstrip (c :: l) = c :: r := by
  rw [show (c :: l) = [c] ++ l from rfl, pyRstrip_append, pyRstrip_singleton c hc]
  by_cases h : pyRstrip l = []
  · exact ⟨[], by simp [h]⟩
  · exact ⟨pyRstrip l, by simp [h]⟩

/-- The final `.strip() + '\n'` of the writer: whitespace-strip the
serialized blocks and re-attach the single trailing newline. -/
theorem pyRstrip_blksText_snoc (bs : List Blk) (hne : ¬ bs = [])
    (hd : ∀ b ∈ bs, dateShape b.date = true) (U : Str) :
    pyRstrip (U ++ blksText bs) ++ [('\n' : Char)] =
      U ++ blksText (adjTailLast (fun t => pyRstrip t ++ [('\n' : Char)]) bs) := by
  rcases List.eq_nil_or_concat bs with rfl | ⟨Z, b, rfl⟩
  · exact absurd rfl hne
  · rw [List.concat_eq_append] at hd ⊢
    rw [pyRstrip_blksText _ (by simp) hd U]
    rw [adjTailLast_concat, adjTailLast_concat]
    rw [blksText_append, blksText_append, blksText_singleton, blksText_singleton]
    rw [List.append_assoc, List.append_assoc]
    congr 1
    congr 1
    rw [blkText_tail_append]

/-- After `rstrip('\n')`, a serialization ending in a block never ends in
a newline: the stripped tail either vanishes (exposing the date's final
digit) or itself ends in a non-newline character. -/
theorem getLast_lastBlock_rstripNl (U : Str) (b : Blk) (hd : dateShape b.date = true) :
    ¬ (U ++ blkText { b with tail := rstripNl b.tail }).getLast? = some '\n' := by
  obtain ⟨d2, c, hdec, _, hnl⟩ := dateShape_concat b.date hd
  cases hrt : rstripNl b.tail with
  | nil =>
    have hshape : U ++ blkText { b with tail := ([] : Str) } =
        (U ++ (if b.pad then [('\n' : Char)] else []) ++ str "\n## " ++ d2) ++ [c] := by
      rw [blkText, hdec]
      simp [List.append_assoc]
    intro hcontra
    rw [hshape, List.getLast?_concat] at hcontra
    exact hnl (Option.some.inj hcontra)
  | cons t0 ts =>
    have hshape : U ++ blkText { b with tail := t0 :: ts } =
        (U ++ (if b.pad then [('\n' : Char)] else []) ++ str "\n## " ++ b.date) ++ (t0 :: ts) := by
      rw [blkText]
      simp [List.append_assoc]
    intro hcontra
    rw [hshape, List.getLast?_append] at hcontra
    have hne : ¬ (t0 :: ts : Str) = [] := by simp
    rcases rstripNl_getLast b.tail with h | h
    · rw [hrt] at h; simp at h
    · rw [hrt] at h
      apply h
      cases hlast : (t0 :: ts : Str).getLast? with
      | none => rw [List.getLast?_eq_none_iff] at hlast; exact absurd hlast hne
      | some a => rw [hlast] at hcontra; simpa [hlast] using hcontra

/-- Dropping the leading newline of a section marker. -/
theorem lstripNl_marker (Y : Str) : lstripNl (str "\n## " ++ Y) = str "## " ++ Y := by
  simp [lstripNl, str, List.dropWhile]

/-- A header beginning with a non-whitespace character survives as a
non-empty prefix of its `rstrip('\n')`, which still contains no `##`. -/
theorem rstripNl_headOk (h : Str) (hho : HeadOk h) :
    (∃ hc r, h = hc :: r ∧ pyWsChar hc = false ∧ ¬ hc = '\n') ∧
      noDoubleHash (rstripNl h) = true := by
  constructor
  · cases h with
    | nil => exact absurd hho.1 (by decide)
    | cons hc r =>
      have hws : pyWsChar hc = false := by simpa using hho.1
      refine ⟨hc, r, rfl, hws, ?_⟩
      intro hnl
      subst hnl
      exact absurd hws (by decide)
  · obtain ⟨w, hdecomp, _⟩ := rstripNl_decomp h
    exact noDoubleHash_append_left _ w (by rw [← hdecomp]; exact hho.2)

/-- Likewise for the full whitespace `rstrip()`. -/
theorem pyRstrip_headOk (h : Str) (hho : HeadOk h) :
    noDoubleHash (pyRstrip h) = true := by
  obtain ⟨w, hdecomp, _⟩ := pyRstrip_decomp h
  exact noDoubleHash_append_left _ w (by rw [← hdecomp]; exact hho.2)

/-- Evaluating the splice step when the text before the point is
non-empty without a trailing newline and the text after it starts at a
section marker: the two glue newlines and the rendered section combine
into one padded block, whose trailing newline fuses with the following
marker. -/
theorem spliceAt_insert_eval (before Y dateStr pcCore : Str) (pc' : Str)
    (hb_ne : ¬ before = []) (hb_last : ¬ before.getLast? = some '\n')
    (hpc : pc' = str "## " ++ dateStr ++ pcCore ++ [('\n' : Char)]) :
    spliceAt before pc' (str "\n## " ++ Y) =
      pyStrip (before ++
        (blkText { pad := true, date := dateStr, tail := pcCore } ++ (str "\n## " ++ Y))) ++
        [('\n' : Char)] := by
  rw [spliceAt]
  have hhd : (str "\n## " ++ Y).head? = some '\n' := rfl
  rw [if_neg (fun h => h.2 hhd)]
  rw [if_pos ⟨hb_ne, hb_last⟩]
  rw [lstripNl_marker, hpc]
  have hglue : (str "\n" : Str) = [('\n' : Char)] := rfl
  rw [hglue]
  congr 1
  rw [blkText]
  simp [str, List.append_assoc]

/-- The insert branch of the merge: when no section carries the target
date and some block is strictly later, the rewritten document is again
a well-formed document whose blocks are the earlier blocks, the new
section, and the later blocks. -/
theorem update_insert_branch
    (head : Str) (bs : List Blk) (papers : List Paper) (dateStr pcCore : Str)
    (bj : Blk) (post : List Blk)
    (hho : HeadOk head) (hok : BlocksOk bs)
    (habs : ∀ b ∈ bs, ¬ b.date = dateStr)
    (hpapers : ¬ papers = [])
    (hdate : dateShape dateStr = true)
    (hpc : papersContent papers dateStr = str "## " ++ dateStr ++ pcCore ++ [('\n' : Char)])
    (hpcOk : tailOk pcCore = true)
    (hdw : bs.dropWhile (fun b => !strLt dateStr b.date) = bj :: post) :
    ∃ (h2 : Str) (bs2 : List Blk),
      updateMarkdownFile (head ++ blksText bs) papers dateStr = h2 ++ blksText bs2 ∧
      noDoubleHash h2 = true ∧ BlocksOk bs2 ∧
      bs2.map (fun b => b.date) =
        (bs.takeWhile (fun b => !strLt dateStr b.date)).map (fun b => b.date) ++
          dateStr :: bj.date :: post.map (fun b => b.date) := by
  obtain ⟨⟨hc, r, hhead_eq, hcws, hcnl⟩, hndh⟩ := rstripNl_headOk head hho
  have hsplit : bs = bs.takeWhile (fun b => !strLt dateStr b.date) ++ bj :: post := by
    conv_lhs => rw [← List.takeWhile_append_dropWhile (fun b => !strLt dateStr b.date) bs]
    rw [hdw]
  have hokpre : BlocksOk (bs.takeWhile (fun b => !strLt dateStr b.date)) :=
    fun b hb => hok b ((List.takeWhile_sublist _).subset hb)
  have hbjmem : bj ∈ bs := by
    rw [hsplit]; exact List.mem_append_right _ (List.mem_cons_self _ _)
  have hokbj := hok bj hbjmem
  have hokpost : BlocksOk post := fun b hb =>
    hok b (by rw [hsplit]; exact List.mem_append_right _ (List.mem_cons_of_mem _ hb))
  have hscan : scanSections (head ++ blksText bs) = expectedAt bs (head.length + padLen bs) :=
    scanSections_docOf head bs hho.2 hok
  have hfindd := expectedAt_find_date_none dateStr bs habs (head.length + padLen bs)
  obtain ⟨cs, hfind⟩ := (expectedAt_find_insert dateStr bs head).2 bj post hdw
  have hred : updateMarkdownFile (head ++ blksText bs) papers dateStr =
      spliceAt
        (rstripNl ((head ++ blksText bs).take
          ((head ++ blksText (bs.takeWhile (fun b => !strLt dateStr b.date))).length +
            (if bj.pad then 1 else 0))))
        (papersContent papers dateStr)
        ((head ++ blksText bs).drop
          ((head ++ blksText (bs.takeWhile (fun b => !strLt dateStr b.date))).length +
            (if bj.pad then 1 else 0))) := by
    simp only [updateMarkdownFile, if_neg hpapers, hscan, hfindd, hfind]
  have hdoc : head ++ blksText bs =
      (head ++ blksText (bs.takeWhile (fun b => !strLt dateStr b.date)) ++
        (if bj.pad then [('\n' : Char)] else [])) ++
        (str "\n## " ++ (bj.date ++ (bj.tail ++ blksText post))) := by
    conv_lhs => rw [hsplit]
    rw [blksText_append, blksText_cons, blkText]
    simp [List.append_assoc]
  have hlenA : (head ++ blksText (bs.takeWhile (fun b => !strLt dateStr b.date)) ++
      (if bj.pad then [('\n' : Char)] else [])).length =
      (head ++ blksText (bs.takeWhile (fun b => !strLt dateStr b.date))).length +
        (if bj.pad then 1 else 0) := by
    cases bj.pad
    · simp
    · simp
      omega
  have htake : (head ++ blksText bs).take
      ((head ++ blksText (bs.takeWhile (fun b => !strLt dateStr b.date))).length +
        (if bj.pad then 1 else 0)) =
      head ++ blksText (bs.takeWhile (fun b => !strLt dateStr b.date)) ++
        (if bj.pad then [('\n' : Char)] else []) := by
    rw [hdoc]; exact List.take_left' hlenA
  have hdrop : (head ++ blksText bs).drop
      ((head ++ blksText (bs.takeWhile (fun b => !strLt dateStr b.date))).length +
        (if bj.pad then 1 else 0)) =
      str "\n## " ++ (bj.date ++ (bj.tail ++ blksText post)) := by
    rw [hdoc]; exact List.drop_left' hlenA
  have hbefore0 : rstripNl (head ++ blksText (bs.takeWhile (fun b => !strLt dateStr b.date)) ++
      (if bj.pad then [('\n' : Char)] else [])) =
      rstripNl (head ++ blksText (bs.takeWhile (fun b => !strLt dateStr b.date))) := by
    cases hp : bj.pad
    · simp
    · simpa using rstripNl_snoc_nl
        (head ++ blksText (bs.takeWhile (fun b => !strLt dateStr b.date)))
  rw [hred, htake, hdrop, hbefore0]
  by_cases hpre : bs.takeWhile (fun b => !strLt dateStr b.date) = []
  · -- no earlier block: the new section goes right after the header
    obtain ⟨rr, hrhead⟩ := rstripNl_cons hc r hcnl
    have hbefore : rstripNl (head ++ blksText (bs.takeWhile (fun b => !strLt dateStr b.date))) =
        rstripNl head := by
      rw [hpre]
      show rstripNl (head ++ blksText []) = rstripNl head
      simp [blksText]
    rw [hbefore]
    have hb_ne : ¬ rstripNl head = [] := by
      rw [hhead_eq, hrhead]; simp
    have hb_last : ¬ (rstripNl head).getLast? = some '\n' := by
      rcases rstripNl_getLast head with h | h
      · exact absurd h hb_ne
      · exact h
    rw [spliceAt_insert_eval _ _ _ _ _ hb_ne hb_last hpc]
    have hinner : rstripNl head ++
        (blkText { pad := true, date := dateStr, tail := pcCore } ++
          (str "\n## " ++ (bj.date ++ (bj.tail ++ blksText post)))) =
        rstripNl head ++ blksText ({ pad := true, date := dateStr, tail := pcCore } ::
          { pad := false, date := bj.date, tail := bj.tail } :: post) := by
      rw [blksText_cons, blksText_cons]
      rw [show blkText { pad := false, date := bj.date, tail := bj.tail } =
        str "\n## " ++ bj.date ++ bj.tail from by simp [blkText]]
      simp [List.append_assoc]
    rw [hinner]
    have hBS2ok : BlocksOk ({ pad := true, date := dateStr, tail := pcCore } ::
        { pad := false, date := bj.date, tail := bj.tail } :: post) := by
      intro b hb
      rcases List.mem_cons.mp hb with rfl | hb
      · exact ⟨hdate, hpcOk⟩
      rcases List.mem_cons.mp hb with rfl | hb
      · exact hokbj
      · exact hokpost b hb
    have hgd : pyWsChar ((rstripNl head ++ blksText
        ({ pad := true, date := dateStr, tail := pcCore } ::
          { pad := false, date := bj.date, tail := bj.tail } :: post)).getD 0 'x') = false := by
      rw [hhead_eq, hrhead]
      simpa using hcws
    rw [pyStrip_eq_pyRstrip _ hgd]
    rw [pyRstrip_blksText_snoc _ (by simp) (fun b hb => (hBS2ok b hb).1) (rstripNl head)]
    refine ⟨rstripNl head,
      adjTailLast (fun t => pyRstrip t ++ [('\n' : Char)])
        ({ pad := true, date := dateStr, tail := pcCore } ::
          { pad := false, date := bj.date, tail := bj.tail } :: post), rfl, hndh, ?_, ?_⟩
    · exact BlocksOk_adjTailLast _ _ hBS2ok tailOk_pyRstrip_snoc
    · rw [adjTailLast_dates, hpre]
      simp
  · -- at least one earlier block: its stripped tail precedes the splice
    have hbefore : rstripNl (head ++ blksText (bs.takeWhile (fun b => !strLt dateStr b.date))) =
        head ++ blksText (adjTailLast rstripNl (bs.takeWhile (fun b => !strLt dateStr b.date))) :=
      rstripNl_blksText _ hpre (fun b hb => (hokpre b hb).1) head
    rw [hbefore]
    obtain ⟨Z, bz, hpreZ⟩ :=
      (List.eq_nil_or_concat (bs.takeWhile (fun b => !strLt dateStr b.date))).resolve_left hpre
    rw [List.concat_eq_append] at hpreZ
    have hp2ok : BlocksOk (adjTailLast rstripNl (bs.takeWhile (fun b => !strLt dateStr b.date))) :=
      BlocksOk_adjTailLast _ _ hokpre tailOk_rstripNl
    have hb_ne : ¬ (head ++
        blksText (adjTailLast rstripNl (bs.takeWhile (fun b => !strLt dateStr b.date)))) = [] := by
      rw [hhead_eq]; simp
    have hb_last : ¬ (head ++
        blksText (adjTailLast rstripNl
          (bs.takeWhile (fun b => !strLt dateStr b.date)))).getLast? = some '\n' := by
      rw [hpreZ, adjTailLast_concat, blksText_append, blksText_singleton, ← List.append_assoc]
      exact getLast_lastBlock_rstripNl (head ++ blksText Z) bz
        (hokpre bz (by rw [hpreZ]; exact List.mem_append_right _ (List.mem_singleton.mpr rfl))).1
    rw [spliceAt_insert_eval _ _ _ _ _ hb_ne hb_last hpc]
    have hinner : head ++
        blksText (adjTailLast rstripNl (bs.takeWhile (fun b => !strLt dateStr b.date))) ++
        (blkText { pad := true, date := dateStr, tail := pcCore } ++
          (str "\n## " ++ (bj.date ++ (bj.tail ++ blksText post)))) =
        head ++ blksText (adjTailLast rstripNl (bs.takeWhile (fun b => !strLt dateStr b.date)) ++
          ({ pad := true, date := dateStr, tail := pcCore } ::
            { pad := false, date := bj.date, tail := bj.tail } :: post)) := by
      rw [blksText_append, blksText_cons, blksText_cons]
      rw [show blkText { pad := false, date := bj.date, tail := bj.tail } =
        str "\n## " ++ bj.date ++ bj.tail from by simp [blkText]]
      simp [List.append_assoc]
    rw [hinner]
    have hBS2ok : BlocksOk (adjTailLast rstripNl
        (bs.takeWhile (fun b => !strLt dateStr b.date)) ++
        ({ pad := true, date := dateStr, tail := pcCore } ::
          { pad := false, date := bj.date, tail := bj.tail } :: post)) := by
      intro b hb
      rcases List.mem_append.mp hb with hb | hb
      · exact hp2ok b hb
      rcases List.mem_cons.mp hb with rfl | hb
      · exact ⟨hdate, hpcOk⟩
      rcases List.mem_cons.mp hb with rfl | hb
      · exact hokbj
      · exact hokpost b hb
    have hgd : pyWsChar ((head ++ blksText (adjTailLast rstripNl
        (bs.takeWhile (fun b => !strLt dateStr b.date)) ++
        ({ pad := true, date := dateStr, tail := pcCore } ::
          { pad := false, date := bj.date, tail := bj.tail } :: post))).getD 0 'x') = false := by
      rw [hhead_eq]
      simpa using hcws
    rw [pyStrip_eq_pyRstrip _ hgd]
    rw [pyRstrip_blksText_snoc _ (by simp) (fun b hb => (hBS2ok b hb).1) head]
    refine ⟨head,
      adjTailLast (fun t => pyRstrip t ++ [('\n' : Char)])
        (adjTailLast rstripNl (bs.takeWhile (fun b => !strLt dateStr b.date)) ++
          ({ pad := true, date := dateStr, tail := pcCore } ::
            { pad := false, date := bj.date, tail := bj.tail } :: post)),
      rfl, hho.2, ?_, ?_⟩
    · exact BlocksOk_adjTailLast _ _ hBS2ok tailOk_pyRstrip_snoc
    · rw [adjTailLast_dates, List.map_append, adjTailLast_dates]
      simp

theorem tailOk_snoc_nl (t : Str) (h : tailOk t = true) :
    tailOk (t ++ [('\n' : Char)]) = true := by
  show noMarkIn ((t ++ [('\n' : Char)]) ++ [('\n' : Char)]) = true
  rw [List.append_assoc]
  exact noMarkIn_extend_nl t h

/-- The append branch of the merge: when no section carries the target
date and no block is strictly later, the new section lands at the end
of the document. -/
theorem update_append_branch
    (head : Str) (bs : List Blk) (papers : List Paper) (dateStr pcCore : Str)
    (hho : HeadOk head) (hok : BlocksOk bs)
    (habs : ∀ b ∈ bs, ¬ b.date = dateStr)
    (hpapers : ¬ papers = [])
    (hdate : dateShape dateStr = true)
    (hpc : papersContent papers dateStr = str "## " ++ dateStr ++ pcCore ++ [('\n' : Char)])
    (hpcOk : tailOk pcCore = true)
    (hdw : bs.dropWhile (fun b => !strLt dateStr b.date) = []) :
    ∃ (h2 : Str) (bs2 : List Blk),
      updateMarkdownFile (head ++ blksText bs) papers dateStr = h2 ++ blksText bs2 ∧
      noDoubleHash h2 = true ∧ BlocksOk bs2 ∧
      bs2.map (fun b => b.date) = bs.map (fun b => b.date) ++ [dateStr] := by
  obtain ⟨⟨hc, r, hhead_eq, hcws, hcnl⟩, _⟩ := rstripNl_headOk head hho
  have hnewOk : tailOk (pcCore ++ [('\n' : Char)]) = true := tailOk_snoc_nl pcCore hpcOk
  have hscan : scanSections (head ++ blksText bs) = expectedAt bs (head.length + padLen bs) :=
    scanSections_docOf head bs hho.2 hok
  have hfindd := expectedAt_find_date_none dateStr bs habs (head.length + padLen bs)
  have hfindi := (expectedAt_find_insert dateStr bs head).1 hdw
  have hred : updateMarkdownFile (head ++ blksText bs) papers dateStr =
      pyStrip (pyRstrip (head ++ blksText bs) ++ str "\n\n" ++ papersContent papers dateStr) ++
        str "\n" := by
    simp only [updateMarkdownFile, if_neg hpapers, hscan, hfindd, hfindi]
  rw [hred, hpc]
  by_cases hbs : bs = []
  · -- empty document body: the new section is the only block
    subst hbs
    have hemp : pyRstrip (head ++ blksText []) = pyRstrip head := by
      show pyRstrip (head ++ []) = pyRstrip head
      rw [List.append_nil]
    rw [hemp]
    obtain ⟨rr, hrhead⟩ : ∃ rr, pyRstrip head = hc :: rr := by
      rw [hhead_eq]; exact pyRstrip_cons hc r hcws
    have hX : pyRstrip head ++ str "\n\n" ++ (str "## " ++ dateStr ++ pcCore ++ [('\n' : Char)]) =
        pyRstrip head ++
          blksText [{ pad := true, date := dateStr, tail := pcCore ++ [('\n' : Char)] }] := by
      rw [blksText_singleton, blkText]
      simp [str, List.append_assoc]
    rw [hX]
    have hgd : pyWsChar ((pyRstrip head ++
        blksText [{ pad := true, date := dateStr, tail := pcCore ++ [('\n' : Char)] }]).getD
          0 'x') = false := by
      rw [hrhead]
      simpa using hcws
    rw [pyStrip_eq_pyRstrip _ hgd]
    have hdates1 : ∀ b ∈ [{ pad := true, date := dateStr, tail := pcCore ++ [('\n' : Char)] }],
        dateShape (Blk.date b) = true := by
      intro b hb
      rw [List.mem_singleton] at hb
      subst hb
      exact hdate
    rw [show (str "\n" : Str) = [('\n' : Char)] from rfl]
    rw [pyRstrip_blksText_snoc _ (by simp) hdates1 (pyRstrip head)]
    refine ⟨pyRstrip head,
      adjTailLast (fun t => pyRstrip t ++ [('\n' : Char)])
        [{ pad := true, date := dateStr, tail := pcCore ++ [('\n' : Char)] }],
      rfl, pyRstrip_headOk head hho, ?_, ?_⟩
    · refine BlocksOk_adjTailLast _ _ ?_ tailOk_pyRstrip_snoc
      intro b hb
      rw [List.mem_singleton] at hb
      subst hb
      exact ⟨hdate, hnewOk⟩
    · rw [adjTailLast_dates]
      simp
  · -- non-empty body: the stripped last block precedes the new one
    have hstrip : pyRstrip (head ++ blksText bs) =
        head ++ blksText (adjTailLast pyRstrip bs) :=
      pyRstrip_blksText bs hbs (fun b hb => (hok b hb).1) head
    rw [hstrip]
    have hqok : BlocksOk (adjTailLast pyRstrip bs) :=
      BlocksOk_adjTailLast _ _ hok tailOk_pyRstrip
    have hX : head ++ blksText (adjTailLast pyRstrip bs) ++ str "\n\n" ++
        (str "## " ++ dateStr ++ pcCore ++ [('\n' : Char)]) =
        head ++ blksText (adjTailLast pyRstrip bs ++
          [{ pad := true, date := dateStr, tail := pcCore ++ [('\n' : Char)] }]) := by
      rw [blksText_append, blksText_singleton, blkText]
      simp [str, List.append_assoc]
    rw [hX]
    have hBS2ok : BlocksOk (adjTailLast pyRstrip bs ++
        [{ pad := true, date := dateStr, tail := pcCore ++ [('\n' : Char)] }]) := by
      intro b hb
      rcases List.mem_append.mp hb with hb | hb
      · exact hqok b hb
      · rw [List.mem_singleton] at hb
        subst hb
        exact ⟨hdate, hnewOk⟩
    have hgd : pyWsChar ((head ++ blksText (adjTailLast pyRstrip bs ++
        [{ pad := true, date := dateStr, tail := pcCore ++ [('\n' : Char)] }])).getD
          0 'x') = false := by
      rw [hhead_eq]
      simpa using hcws
    rw [pyStrip_eq_pyRstrip _ hgd]
    rw [show (str "\n" : Str) = [('\n' : Char)] from rfl]
    rw [pyRstrip_blksText_snoc _ (by simp) (fun b hb => (hBS2ok b hb).1) head]
    refine ⟨head,
      adjTailLast (fun t => pyRstrip t ++ [('\n' : Char)])
        (adjTailLast pyRstrip bs ++
          [{ pad := true, date := dateStr, tail := pcCore ++ [('\n' : Char)] }]),
      rfl, hho.2, ?_, ?_⟩
    · exact BlocksOk_adjTailLast _ _ hBS2ok tailOk_pyRstrip_snoc
    · rw [adjTailLast_dates, List.map_append, adjTailLast_dates]
      simp

theorem dates_takeWhile (dateStr : Str) (bs : List Blk) :
    (bs.map (fun b => b.date)).takeWhile (fun d => !strLt dateStr d) =
      (bs.takeWhile (fun b => !strLt dateStr b.date)).map (fun b => b.date) := by
  induction bs with
  | nil => rfl
  | cons b bs ih =>
    rw [List.map_cons, List.takeWhile_cons, List.takeWhile_cons]
    by_cases h : strLt dateStr b.date = true
    · rw [if_neg (by simp [h]), if_neg (by simp [h])]
      rfl
    · rw [if_pos (by simp [h]), if_pos (by simp [h]), List.map_cons, ih]

theorem dates_dropWhile (dateStr : Str) (bs : List Blk) :
    (bs.map (fun b => b.date)).dropWhile (fun d => !strLt dateStr d) =
      (bs.dropWhile (fun b => !strLt dateStr b.date)).map (fun b => b.date) := by
  induction bs with
  | nil => rfl
  | cons b bs ih =>
    rw [List.map_cons, List.dropWhile_cons, List.dropWhile_cons]
    by_cases h : strLt dateStr b.date = true
    · rw [if_neg (by simp [h]), if_neg (by simp [h])]
      rfl
    · rw [if_pos (by simp [h]), if_pos (by simp [h]), ih]

/-- In a sorted date list, everything the insert point skips to is
strictly later than the new date. -/
theorem strLt_dropWhile_all (dateStr : Str) (D : List Str)
    (hD : List.Pairwise (fun a b => strLt a b = true) D) :
    ∀ y ∈ D.dropWhile (fun d => !strLt dateStr d), strLt dateStr y = true := by
  induction D with
  | nil => intro y hy; simp at hy
  | cons d D ih =>
    intro y hy
    rw [List.dropWhile_cons] at hy
    by_cases h : strLt dateStr d = true
    · rw [if_neg (by simp [h])] at hy
      rcases List.mem_cons.mp hy with rfl | hy
      · exact h
      · exact strLt_trans _ _ _ h (List.rel_of_pairwise_cons hD hy)
    · rw [if_pos (by simp [h])] at hy
      exact ih hD.of_cons y hy

/-- Either branch of the merge yields a well-formed document whose
block dates are the earlier dates, the new date, and the later dates. -/
theorem update_reassembly
    (head : Str) (bs : List Blk) (papers : List Paper) (dateStr pcCore : Str)
    (hho : HeadOk head) (hok : BlocksOk bs)
    (habs : ∀ b ∈ bs, ¬ b.date = dateStr)
    (hpapers : ¬ papers = [])
    (hdate : dateShape dateStr = true)
    (hpc : papersContent papers dateStr = str "## " ++ dateStr ++ pcCore ++ [('\n' : Char)])
    (hpcOk : tailOk pcCore = true) :
    ∃ (h2 : Str) (bs2 : List Blk),
      updateMarkdownFile (head ++ blksText bs) papers dateStr = h2 ++ blksText bs2 ∧
      noDoubleHash h2 = true ∧ BlocksOk bs2 ∧
      bs2.map (fun b => b.date) =
        (bs.map (fun b => b.date)).takeWhile (fun d => !strLt dateStr d) ++
          dateStr :: (bs.map (fun b => b.date)).dropWhile (fun d => !strLt dateStr d) := by
  cases hdw : bs.dropWhile (fun b => !strLt dateStr b.date) with
  | nil =>
    obtain ⟨h2, bs2, he, hn, hb, hd⟩ :=
      update_append_branch head bs papers dateStr pcCore hho hok habs hpapers hdate hpc hpcOk hdw
    refine ⟨h2, bs2, he, hn, hb, ?_⟩
    rw [hd, dates_takeWhile, dates_dropWhile, hdw]
    have htw : bs.takeWhile (fun b => !strLt dateStr b.date) = bs := by
      have := List.takeWhile_append_dropWhile (fun b => !strLt dateStr b.date) bs
      rw [hdw, List.append_nil] at this
      exact this
    rw [htw]
    rfl
  | cons bj post =>
    obtain ⟨h2, bs2, he, hn, hb, hd⟩ :=
      update_insert_branch head bs papers dateStr pcCore bj post
        hho hok habs hpapers hdate hpc hpcOk hdw
    refine ⟨h2, bs2, he, hn, hb, ?_⟩
    rw [hd, dates_takeWhile, dates_dropWhile, hdw, List.map_cons]

/-- C7: merging a fresh date into a well-formed weekly document keeps
the section list sorted and duplicate-free, inserting the new section
immediately before the first strictly later section (between D1 and D3
when D1 < D2 < D3) or appending it when none is later.  Stated over
any document assembled from a clean header and date blocks whose dates
are strictly ascending and avoid the target date; the re-scan of the
merged text shows the earlier dates, then the new date, then the later
dates, still strictly sorted with at most one section per date. -/
theorem C7_sorted_insert_invariant
    (head : Str) (bs : List Blk) (papers : List Paper) (dateStr pcCore : Str)
    (hho : HeadOk head) (hok : BlocksOk bs)
    (hsorted : List.Pairwise (fun a b => strLt a b = true) (bs.map (fun b => b.date)))
    (habs : ∀ b ∈ bs, ¬ b.date = dateStr)
    (hpapers : ¬ papers = [])
    (hdate : dateShape dateStr = true)
    (hpc : papersContent papers dateStr = str "## " ++ dateStr ++ pcCore ++ [('\n' : Char)])
    (hpcOk : tailOk pcCore = true) :
    (scanSections (updateMarkdownFile (head ++ blksText bs) papers dateStr)).map
        (fun s => s.1) =
      (bs.map (fun b => b.date)).takeWhile (fun d => !strLt dateStr d) ++
        dateStr :: (bs.map (fun b => b.date)).dropWhile (fun d => !strLt dateStr d) ∧
    List.Pairwise (fun a b => strLt a b = true)
      ((scanSections (updateMarkdownFile (head ++ blksText bs) papers dateStr)).map
        (fun s => s.1)) ∧
    ((scanSections (updateMarkdownFile (head ++ blksText bs) papers dateStr)).map
        (fun s => s.1)).Nodup := by
  obtain ⟨h2, bs2, he, hn, hb, hd⟩ :=
    update_reassembly head bs papers dateStr pcCore hho hok habs hpapers hdate hpc hpcOk
  have hdates : (scanSections (updateMarkdownFile (head ++ blksText bs) papers dateStr)).map
      (fun s => s.1) =
      (bs.map (fun b => b.date)).takeWhile (fun d => !strLt dateStr d) ++
        dateStr :: (bs.map (fun b => b.date)).dropWhile (fun d => !strLt dateStr d) := by
    rw [he, scanSections_docOf h2 bs2 hn hb, expectedAt_dates, hd]
  have hDsplit : (bs.map (fun b => b.date)).takeWhile (fun d => !strLt dateStr d) ++
      (bs.map (fun b => b.date)).dropWhile (fun d => !strLt dateStr d) =
      bs.map (fun b => b.date) :=
    List.takeWhile_append_dropWhile _ _
  have hsorted' : List.Pairwise (fun a b => strLt a b = true)
      ((bs.map (fun b => b.date)).takeWhile (fun d => !strLt dateStr d) ++
        (bs.map (fun b => b.date)).dropWhile (fun d => !strLt dateStr d)) := by
    rw [hDsplit]; exact hsorted
  obtain ⟨hT, hR, hTR⟩ := List.pairwise_append.mp hsorted'
  have hdsR : ∀ y ∈ (bs.map (fun b => b.date)).dropWhile (fun d => !strLt dateStr d),
      strLt dateStr y = true :=
    strLt_dropWhile_all dateStr _ hsorted
  have hcross : ∀ a ∈ (bs.map (fun b => b.date)).takeWhile (fun d => !strLt dateStr d),
      strLt a dateStr = true := by
    intro a ha
    have hnot : strLt dateStr a = false := by
      have := List.mem_takeWhile_imp ha
      simpa using this
    have hamem : a ∈ bs.map (fun b => b.date) := (List.takeWhile_sublist _).subset ha
    obtain ⟨b, hbmem, hba⟩ := List.mem_map.mp hamem
    have hane : ¬ a = dateStr := by
      intro h
      exact habs b hbmem (by rw [hba, h])
    rcases strLt_total a dateStr with h | h | h
    · exact absurd h hane
    · exact h
    · rw [h] at hnot
      exact absurd hnot (by simp)
  have hpair : List.Pairwise (fun a b => strLt a b = true)
      ((bs.map (fun b => b.date)).takeWhile (fun d => !strLt dateStr d) ++
        dateStr :: (bs.map (fun b => b.date)).dropWhile (fun d => !strLt dateStr d)) := by
    rw [List.pairwise_append]
    refine ⟨hT, ?_, ?_⟩
    · exact List.Pairwise.cons hdsR hR
    · intro a ha b hbb
      rcases List.mem_cons.mp hbb with rfl | hbb
      · exact hcross a ha
      · exact hTR a ha b hbb
  refine ⟨hdates, ?_, ?_⟩
  · rw [hdates]; exact hpair
  · rw [hdates]
    refine hpair.imp ?_
    intro a b h heq
    rw [heq, strLt_irrefl] at h
    exact absurd h (by simp)

set_option maxRecDepth 100000 in
theorem C7_witness :
    HeadOk headC7 ∧
    ((scanSections (updateMarkdownFile (headC7 ++ blksText blksC7) [procRL]
        (str "2024-01-03"))).map (fun s => s.1) =
      (blksC7.map (fun b => b.date)).takeWhile (fun d => !strLt (str "2024-01-03") d) ++
        str "2024-01-03" :: (blksC7.map (fun b => b.date)).dropWhile
          (fun d => !strLt (str "2024-01-03") d) ∧
    List.Pairwise (fun a b => strLt a b = true)
      ((scanSections (updateMarkdownFile (headC7 ++ blksText blksC7) [procRL]
        (str "2024-01-03"))).map (fun s => s.1)) ∧
    ((scanSections (updateMarkdownFile (headC7 ++ blksText blksC7) [procRL]
        (str "2024-01-03"))).map (fun s => s.1)).Nodup) :=
  have hho : HeadOk headC7 := ⟨by decide, by decide⟩
  have hok : BlocksOk blksC7 := by
    intro b hb
    fin_cases hb
    · exact ⟨by decide, by decide⟩
    · exact ⟨by decide, by decide⟩
  ⟨hho,
    C7_sorted_insert_invariant headC7 blksC7 [procRL] (str "2024-01-03") pcCoreC7
      hho hok (by decide) (by decide) (by simp) (by decide)
      (by decide) (by decide)⟩

end ArxivDaily
